import Mathlib

/-!
Shallow embedding of the markdown-subset rendering pipeline of
`src/components/FormattedText.tsx`: block splitting of fenced code,
line classification, list grouping, inline formatting and code
highlighting, together with proofs about the claims of the
specification.  Strings are modelled as `List Char`; the JavaScript
regular-expression semantics (leftmost match, lazy/greedy quantifier
backtracking) is implemented directly by recursive scanners.
-/

/-- Character class of the JavaScript regex `.`: any character except a
line terminator. -/
def isDotChar (c : Char) : Bool :=
  !(c = '\n' || c = '\r' || c = ' ' || c = ' ')

/-- Character class of the JavaScript regex `\s` (the common members). -/
def isJsWs (c : Char) : Bool :=
  c = ' ' || c = '\t' || c = '\n' || c = '\r' ||
  c = '\x0b' || c = '\x0c' || c = ' ' || c = '﻿'

/-- Character class `[a-zA-Z0-9]` used by the fence language tag. -/
def isAlnumChar (c : Char) : Bool :=
  ('a' ≤ c && c ≤ 'z') || ('A' ≤ c && c ≤ 'Z') || ('0' ≤ c && c ≤ '9')

/-- Character class `\d`. -/
def isDigitChar (c : Char) : Bool := '0' ≤ c && c ≤ '9'

/-- Character class `\w` used for the `\b` word boundary. -/
def isWordChar (c : Char) : Bool :=
  ('a' ≤ c && c ≤ 'z') || ('A' ≤ c && c ≤ 'Z') || ('0' ≤ c && c ≤ '9') || c = '_'

/-- JavaScript `String.prototype.trim`. -/
def jsTrim (l : List Char) : List Char :=
  ((l.dropWhile isJsWs).reverse.dropWhile isJsWs).reverse

/-- A block produced by the block splitter: plain text or a fenced code
block with a language tag (`[]` when absent). -/
inductive ContentBlock where
  | text (content : List Char)
  | codeBlock (language : List Char) (content : List Char)
  deriving Repr, DecidableEq

/-- The triple-backtick fence delimiter. -/
def codeFence : List Char := ['`', '`', '`']

/-- Lazy scan `([\s\S]*?)` up to the earliest closing fence: returns the
content before the closer and the remainder after it. -/
def lazyContent : List Char → Option (List Char × List Char)
  | [] => none
  | c :: r =>
    if (c :: r).take 3 = codeFence then some ([], (c :: r).drop 3)
    else (lazyContent r).map fun p => (c :: p.1, p.2)

/-- Parse of the optional language tag `([a-zA-Z0-9]+)\n`: a nonempty
alphanumeric run immediately followed by a newline. -/
def tagSplit (l : List Char) : Option (List Char × List Char) :=
  let run := l.takeWhile isAlnumChar
  if run.isEmpty then none
  else
    match l.drop run.length with
    | '\n' :: rest => some (run, rest)
    | _ => none

/-- Attempt of the fenced-code regex at the head of `l`: returns
`(language, content, rest)`.  The optional tag group is tried greedily
first; if no closing fence follows it, the engine backtracks and
retries without the tag. -/
def matchCodeAt (l : List Char) : Option (List Char × List Char × List Char) :=
  if l.take 3 = codeFence then
    match tagSplit (l.drop 3) with
    | some (run, after) =>
      match lazyContent after with
      | some (content, rest) => some (run, content, rest)
      | none => (lazyContent (l.drop 3)).map fun p => ([], p.1, p.2)
    | none => (lazyContent (l.drop 3)).map fun p => ([], p.1, p.2)
  else none

/-- Leftmost successful fenced-code match: returns the text before the
match together with the match's language, content and remainder. -/
def findFence : List Char → Option (List Char × List Char × List Char × List Char)
  | [] => none
  | c :: r =>
    match matchCodeAt (c :: r) with
    | some (lang, content, rest) => some ([], lang, content, rest)
    | none => (findFence r).map fun q => (c :: q.1, q.2.1, q.2.2.1, q.2.2.2)

theorem lazyContent_length {l cs rest : List Char}
    (h : lazyContent l = some (cs, rest)) :
    cs.length + 3 + rest.length = l.length := by
  induction l generalizing cs rest with
  | nil => simp [lazyContent] at h
  | cons c r ih =>
    rw [lazyContent] at h
    by_cases hf : (c :: r).take 3 = codeFence
    · have h3 : 3 ≤ (c :: r).length := by
        have := congrArg List.length hf
        simp only [List.length_take, codeFence, List.length_cons] at this ⊢
        omega
      simp only [hf, if_true, Option.some.injEq, Prod.mk.injEq] at h
      obtain ⟨h1, h2⟩ := h
      subst h1 h2
      simp only [List.length_nil, List.length_drop]
      omega
    · simp only [hf, if_false, Option.map_eq_some'] at h
      obtain ⟨⟨cs', rest'⟩, hp, he⟩ := h
      simp only [Prod.mk.injEq] at he
      obtain ⟨he1, he2⟩ := he
      subst he1 he2
      have := ih hp
      simp only [List.length_cons]
      omega

theorem dropWhile_as_drop (p : α → Bool) :
    ∀ l : List α, l.dropWhile p = l.drop (l.takeWhile p).length
  | [] => rfl
  | a :: l => by
    by_cases h : p a
    · simp only [List.takeWhile_cons_of_pos h, List.dropWhile_cons_of_pos h,
        List.length_cons, List.drop_succ_cons]
      exact dropWhile_as_drop p l
    · simp [List.takeWhile_cons_of_neg h, List.dropWhile_cons_of_neg h]

theorem tagSplit_shape {l run rest : List Char}
    (h : tagSplit l = some (run, rest)) :
    run = l.takeWhile isAlnumChar ∧ run ≠ [] ∧ l = run ++ '\n' :: rest := by
  rw [tagSplit] at h
  split at h
  · cases h
  · rename_i hrun
    split at h
    · rename_i heq
      injection h with h
      injection h with h1 h2
      subst h1 h2
      refine ⟨rfl, by simpa [List.isEmpty_iff] using hrun, ?_⟩
      have hta : List.takeWhile isAlnumChar l ++ List.dropWhile isAlnumChar l = l :=
        List.takeWhile_append_dropWhile isAlnumChar l
      conv_lhs => rw [← hta]
      rw [dropWhile_as_drop, heq]
    · cases h

theorem matchCodeAt_length {l lang content rest : List Char}
    (h : matchCodeAt l = some (lang, content, rest)) :
    rest.length + 6 ≤ l.length := by
  rw [matchCodeAt] at h
  split at h
  · rename_i hf
    have h3 : 3 ≤ l.length := by
      have := congrArg List.length hf
      simp [codeFence] at this
      omega
    split at h
    · rename_i run after htag
      split at h
      · rename_i content' rest' hlz
        injection h with h
        injection h with h1 h
        injection h with h2 h3'
        subst h2 h3'
        have hl := lazyContent_length hlz
        obtain ⟨_, hne, hsh⟩ := tagSplit_shape htag
        have hlen := congrArg List.length hsh
        simp only [List.length_drop, List.length_append, List.length_cons] at hlen
        have : 1 ≤ run.length := by
          cases run
          · simp at hne
          · simp
        omega
      · rename_i hlz
        simp only [Option.map_eq_some', Prod.mk.injEq] at h
        obtain ⟨⟨cs', rest'⟩, hp, he1, he2, he3⟩ := h
        dsimp only at he2 he3
        subst he3
        have hl := lazyContent_length hp
        simp only [List.length_drop] at hl
        omega
    · simp only [Option.map_eq_some', Prod.mk.injEq] at h
      obtain ⟨⟨cs', rest'⟩, hp, he1, he2, he3⟩ := h
      dsimp only at he2 he3
      subst he3
      have hl := lazyContent_length hp
      simp only [List.length_drop] at hl
      omega
  · cases h

theorem findFence_length {l pre lang content rest : List Char}
    (h : findFence l = some (pre, lang, content, rest)) :
    rest.length < l.length := by
  induction l generalizing pre lang content rest with
  | nil => simp [findFence] at h
  | cons c r ih =>
    rw [findFence] at h
    split at h
    · rename_i lang' content' rest' hm
      injection h with h
      injection h with h1 h
      injection h with h2 h
      injection h with h3 h4
      subst h4
      have := matchCodeAt_length hm
      omega
    · rename_i hm
      simp only [Option.map_eq_some'] at h
      obtain ⟨⟨p', l', c', r'⟩, hp, he⟩ := h
      simp only [Prod.mk.injEq] at he
      obtain ⟨he1, he2, he3, he4⟩ := he
      subst he4
      have := ih hp
      simp only [List.length_cons]
      omega

/-- Fueled core of the block splitter loop: each iteration finds the
leftmost fenced-code match, emits the text before it (when nonempty)
and the code block, and continues on the remainder; the final residue
becomes a trailing text block when nonempty.  `none` only on fuel
exhaustion, which `splitAux_isSome` rules out for sufficient fuel. -/
def splitAux : Nat → List Char → Option (List ContentBlock)
  | 0, _ => none
  | n + 1, l =>
    match findFence l with
    | none => some (if l.isEmpty then [] else [.text l])
    | some (pre, lang, content, rest) =>
      (splitAux n rest).map fun bs =>
        (if pre.isEmpty then [] else [.text pre]) ++
          ContentBlock.codeBlock lang content :: bs

/-- The block splitter `textWithCodeBlocks` of the source. -/
def textWithCodeBlocks (text : List Char) : Option (List ContentBlock) :=
  splitAux (text.length + 1) text

theorem splitAux_isSome : ∀ n l, List.length l < n → (splitAux n l).isSome = true := by
  intro n
  induction n with
  | zero => intro l h; omega
  | succ n ih =>
    intro l h
    rw [splitAux]
    cases hf : findFence l with
    | none => simp
    | some q =>
      obtain ⟨pre, lang, content, rest⟩ := q
      have := findFence_length hf
      have := ih rest (by omega)
      simp only [Option.isSome_map']
      exact this

/-- Sufficient fuel makes the splitter fuel-independent, certifying
that `textWithCodeBlocks` implements the unfounded loop faithfully. -/
theorem splitAux_fuel {n m : Nat} {l : List Char} (hn : List.length l < n)
    (hm : List.length l < m) : splitAux n l = splitAux m l := by
  induction n generalizing m l with
  | zero => omega
  | succ n ih =>
    cases m with
    | zero => omega
    | succ m =>
      rw [splitAux, splitAux]
      cases hf : findFence l with
      | none => rfl
      | some q =>
        obtain ⟨pre, lang, content, rest⟩ := q
        have hrest := findFence_length hf
        dsimp only
        rw [@ih m rest (by omega) (by omega)]

example : textWithCodeBlocks "abc".toList = some [.text "abc".toList] := by decide

/-- A line as classified by the first pass of `processLists`. -/
structure ProcessedLine where
  line : List Char
  isListItem : Bool
  isBulletList : Bool
  isNumberedList : Bool
  level : Nat
  content : List Char
  index : Nat
  bulletOrNumber : List Char
  deriving Repr, DecidableEq

/-- The bullet glyph pushed by the source for bullet list items. -/
def bulletGlyph : List Char := "â€¢".toList

/-- Match of the bullet-item regex on a trimmed line: a `-` or `*`
marker, one or more whitespace characters, then the content. -/
def bulletMatch (trimmed : List Char) : Option (Char × List Char) :=
  match trimmed with
  | c :: rest =>
    if (c = '-' || c = '*') && !(rest.takeWhile isJsWs).isEmpty then
      some (c, rest.dropWhile isJsWs)
    else none
  | [] => none

/-- Match of the numbered-item regex on a trimmed line: one or more
digits, a dot, one or more whitespace characters, then the content. -/
def numberedMatch (trimmed : List Char) : Option (List Char × List Char) :=
  let digits := trimmed.takeWhile isDigitChar
  if digits.isEmpty then none
  else
    match trimmed.drop digits.length with
    | '.' :: rest =>
      if (rest.takeWhile isJsWs).isEmpty then none
      else some (digits, rest.dropWhile isJsWs)
    | _ => none

/-- Classification of a single line: indentation level is the leading
whitespace count divided by two; bullet and numbered list items are
recognised on the trimmed line. -/
def processLine (idx : Nat) (line : List Char) : ProcessedLine :=
  let trimmedLine := jsTrim line
  let spaces := (line.takeWhile isJsWs).length
  let level := spaces / 2
  match bulletMatch trimmedLine with
  | some (_, content) =>
    { line := line, isListItem := true, isBulletList := true,
      isNumberedList := false, level := level, content := content,
      index := idx, bulletOrNumber := bulletGlyph }
  | none =>
    match numberedMatch trimmedLine with
    | some (digits, content) =>
      { line := line, isListItem := true, isBulletList := false,
        isNumberedList := true, level := level, content := content,
        index := idx, bulletOrNumber := digits ++ ['.'] }
    | none =>
      { line := line, isListItem := false, isBulletList := false,
        isNumberedList := false, level := 0, content := line,
        index := idx, bulletOrNumber := [] }

/-- The first pass of `processLists`: classify every line, remembering
its original index. -/
def processLists (lines : List (List Char)) : List ProcessedLine :=
  lines.enum.map fun p => processLine p.1 p.2

/-- A node of the inline span tree. -/
inductive Span where
  | text (s : List Char)
  | bold (children : List Span)
  | italic (children : List Span)
  | strikethrough (children : List Span)
  | inlineCode (s : List Char)
  | link (lab : List Char) (url : List Char)
  | image (alt : List Char) (url : List Char) (caption : Option (List Char))

/-- Lazy scan of `(.+?)` followed by a two-character closer `dd`: after
each consumed character the scanner checks for the closer, giving the
shortest nonempty inner text. -/
def scanInner2 (d : Char) : List Char → Option (List Char × List Char)
  | [] => none
  | c :: rest =>
    if !isDotChar c then none
    else if rest.take 2 = [d, d] then some ([c], rest.drop 2)
    else (scanInner2 d rest).map fun p => (c :: p.1, p.2)

/-- Lazy scan of `(.+?)` followed by a one-character closer `d`. -/
def scanInner1 (d : Char) : List Char → Option (List Char × List Char)
  | [] => none
  | c :: rest =>
    if !isDotChar c then none
    else if rest.take 1 = [d] then some ([c], rest.drop 1)
    else (scanInner1 d rest).map fun p => (c :: p.1, p.2)

/-- Attempt of the bold regex at the head: `**`, lazy inner, `**`. -/
def boldAt : List Char → Option (List Char × List Char)
  | '*' :: '*' :: rest => scanInner2 '*' rest
  | _ => none

/-- Leftmost bold match: `(before, inner, after)`. -/
def findBold : List Char → Option (List Char × List Char × List Char)
  | [] => none
  | c :: rest =>
    match boldAt (c :: rest) with
    | some (inner, suf) => some ([], inner, suf)
    | none => (findBold rest).map fun q => (c :: q.1, q.2.1, q.2.2)

/-- Attempt of the italic regex at the head: `*`, lazy inner, `*`. -/
def italicAt : List Char → Option (List Char × List Char)
  | '*' :: rest => scanInner1 '*' rest
  | _ => none

/-- Leftmost italic match. -/
def findItalic : List Char → Option (List Char × List Char × List Char)
  | [] => none
  | c :: rest =>
    match italicAt (c :: rest) with
    | some (inner, suf) => some ([], inner, suf)
    | none => (findItalic rest).map fun q => (c :: q.1, q.2.1, q.2.2)

/-- Attempt of the strikethrough regex at the head. -/
def strikeAt : List Char → Option (List Char × List Char)
  | '~' :: '~' :: rest => scanInner2 '~' rest
  | _ => none

/-- Leftmost strikethrough match. -/
def findStrike : List Char → Option (List Char × List Char × List Char)
  | [] => none
  | c :: rest =>
    match strikeAt (c :: rest) with
    | some (inner, suf) => some ([], inner, suf)
    | none => (findStrike rest).map fun q => (c :: q.1, q.2.1, q.2.2)

/-- Attempt of the inline-code regex at the head: a backtick, a greedy
nonempty run of non-backticks, a backtick. -/
def codeAt : List Char → Option (List Char × List Char)
  | '`' :: rest =>
    let inner := rest.takeWhile fun c => c ≠ '`'
    if inner.isEmpty then none
    else
      match rest.drop inner.length with
      | '`' :: suf => some (inner, suf)
      | _ => none
  | _ => none

/-- Leftmost inline-code match. -/
def findCode : List Char → Option (List Char × List Char × List Char)
  | [] => none
  | c :: rest =>
    match codeAt (c :: rest) with
    | some (inner, suf) => some ([], inner, suf)
    | none => (findCode rest).map fun q => (c :: q.1, q.2.1, q.2.2)

/-- Lazy scan of the link body after `[`: a lazy nonempty text, `](`, a
lazy nonempty url, `)`; on failure of the tail the text is extended. -/
def linkScanT : List Char → Option (List Char × List Char × List Char)
  | [] => none
  | c :: rest =>
    if !isDotChar c then none
    else
      match (if rest.take 2 = [']', '('] then scanInner1 ')' (rest.drop 2) else none) with
      | some (u, suf) => some ([c], u, suf)
      | none => (linkScanT rest).map fun q => (c :: q.1, q.2.1, q.2.2)

/-- Attempt of the link regex at the head. -/
def linkAt : List Char → Option (List Char × List Char × List Char)
  | '[' :: rest => linkScanT rest
  | _ => none

/-- Leftmost link match: `(before, text, url, after)`. -/
def findLink : List Char → Option (List Char × List Char × List Char × List Char)
  | [] => none
  | c :: rest =>
    match linkAt (c :: rest) with
    | some (t, u, suf) => some ([], t, u, suf)
    | none => (findLink rest).map fun q => (c :: q.1, q.2.1, q.2.2.1, q.2.2.2)

/-- Lazy scan of the optional image caption: `(.*?)` up to a quote that
is immediately followed by the closing parenthesis. -/
def capScan : List Char → Option (List Char × List Char)
  | [] => none
  | c :: rest =>
    if c = '"' && rest.take 1 = [')'] then some ([], rest.drop 1)
    else if isDotChar c then (capScan rest).map fun p => (c :: p.1, p.2)
    else none

/-- The captioned variant of the image-regex tail: one or more
whitespace characters, an opening quote, a lazy caption, a quote. -/
def imageTailCap (l : List Char) : Option (List Char × List Char) :=
  if (l.takeWhile isJsWs).isEmpty then none
  else
    match l.drop (l.takeWhile isJsWs).length with
    | '"' :: rest => capScan rest
    | _ => none

/-- Tail of the image regex after the url: the optional caption group
is tried greedily first, then the bare closing parenthesis. -/
def imageTail (l : List Char) : Option (Option (List Char) × List Char) :=
  match imageTailCap l with
  | some (cap, suf) => some (some cap, suf)
  | none =>
    match l with
    | c :: suf => if c = ')' then some (none, suf) else none
    | [] => none

/-- Lazy scan of the image url `(.*?)`: the tail is tried before each
extension of the url. -/
def imageScanUrl : List Char → Option (List Char × Option (List Char) × List Char)
  | [] =>
    (imageTail []).map fun p => ([], p.1, p.2)
  | c :: rest =>
    match imageTail (c :: rest) with
    | some (cap, suf) => some ([], cap, suf)
    | none =>
      if isDotChar c then (imageScanUrl rest).map fun q => (c :: q.1, q.2.1, q.2.2)
      else none

/-- Lazy scan of the image alt text `(.*?)` followed by `](` and the
url scan. -/
def imageScanAlt : List Char → Option (List Char × List Char × Option (List Char) × List Char)
  | [] => none
  | c :: rest =>
    match (if (c :: rest).take 2 = [']', '('] then imageScanUrl ((c :: rest).drop 2) else none) with
    | some (url, cap, suf) => some ([], url, cap, suf)
    | none =>
      if isDotChar c then
        (imageScanAlt rest).map fun q => (c :: q.1, q.2.1, q.2.2.1, q.2.2.2)
      else none

/-- Attempt of the image regex at the head. -/
def imageAt : List Char → Option (List Char × List Char × Option (List Char) × List Char)
  | '!' :: '[' :: rest => imageScanAlt rest
  | _ => none

/-- Leftmost image match: `(before, alt, url, caption, after)`. -/
def findImage : List Char → Option (List Char × List Char × List Char × Option (List Char) × List Char)
  | [] => none
  | c :: rest =>
    match imageAt (c :: rest) with
    | some (alt, url, cap, suf) => some ([], alt, url, cap, suf)
    | none =>
      (findImage rest).map fun q => (c :: q.1, q.2.1, q.2.2.1, q.2.2.2.1, q.2.2.2.2)

example : findBold "*italic **and bold** text*".toList =
    some ("*italic ".toList, "and bold".toList, " text*".toList) := by decide

example : findItalic "`code with *asterisks*`".toList =
    some ("`code with ".toList, "asterisks".toList, "`".toList) := by decide

example : findImage "a ![x](u \"cap\") b".toList =
    some ("a ".toList, "x".toList, "u".toList, some "cap".toList, " b".toList) := by decide

/-- The recursive inline formatter `processFormattingWithCounter` of the
source, with explicit fuel: the construct kinds are tried in the fixed
priority image, bold, italic, strikethrough, inline code, link; the
first (leftmost) match splits the text and the pieces are processed
recursively, threading the key counter exactly as the source does.
`none` only on fuel exhaustion. -/
def processFormattingWithCounter : Nat → List Char → Nat → Option (List Span × Nat)
  | 0, _, _ => none
  | fuel + 1, text, counter =>
    if text.isEmpty then some ([], counter)
    else
      match findImage text with
      | some (pre, alt, url, cap, suf) => do
        let (preR, c1) ← processFormattingWithCounter fuel pre counter
        let c2 := c1 + 1
        let (sufR, c3) ← processFormattingWithCounter fuel suf c2
        some (preR ++ Span.image alt url cap :: sufR, c3)
      | none =>
        match findBold text with
        | some (pre, inner, suf) => do
          let (preR, c1) ← processFormattingWithCounter fuel pre counter
          let (innerR, c2) ← processFormattingWithCounter fuel inner c1
          let comp := Span.bold (if innerR.length > 0 then innerR else [Span.text inner])
          let c3 := c2 + 1
          let (sufR, c4) ← processFormattingWithCounter fuel suf c3
          some (preR ++ comp :: sufR, c4)
        | none =>
          match findItalic text with
          | some (pre, inner, suf) => do
            let (preR, c1) ← processFormattingWithCounter fuel pre counter
            let (innerR, c2) ← processFormattingWithCounter fuel inner c1
            let comp := Span.italic (if innerR.length > 0 then innerR else [Span.text inner])
            let c3 := c2 + 1
            let (sufR, c4) ← processFormattingWithCounter fuel suf c3
            some (preR ++ comp :: sufR, c4)
          | none =>
            match findStrike text with
            | some (pre, inner, suf) => do
              let (preR, c1) ← processFormattingWithCounter fuel pre counter
              let (innerR, c2) ← processFormattingWithCounter fuel inner c1
              let comp := Span.strikethrough
                (if innerR.length > 0 then innerR else [Span.text inner])
              let c3 := c2 + 1
              let (sufR, c4) ← processFormattingWithCounter fuel suf c3
              some (preR ++ comp :: sufR, c4)
            | none =>
              match findCode text with
              | some (pre, codeText, suf) => do
                let (preR, c1) ← processFormattingWithCounter fuel pre counter
                let c2 := c1 + 1
                let (sufR, c3) ← processFormattingWithCounter fuel suf c2
                some (preR ++ Span.inlineCode codeText :: sufR, c3)
              | none =>
                match findLink text with
                | some (pre, t, u, suf) => do
                  let (preR, c1) ← processFormattingWithCounter fuel pre counter
                  let c2 := c1 + 1
                  let (sufR, c3) ← processFormattingWithCounter fuel suf c2
                  some (preR ++ Span.link t u :: sufR, c3)
                | none => some ([Span.text text], counter + 1)

/-- The `ParseInlineFormatting` component: run the formatter and fall
back to the raw text when the result list is empty. -/
def parseInlineFormatting (l : List Char) : Option (List Span) :=
  (processFormattingWithCounter (l.length + 1) l 0).map fun p =>
    if p.1.length > 0 then p.1 else [Span.text l]

mutual

/-- The literal strings of the `PlainText` leaves of a span, in
document order. -/
def plainLeaves : Span → List (List Char)
  | .text s => [s]
  | .bold cs => plainLeavesList cs
  | .italic cs => plainLeavesList cs
  | .strikethrough cs => plainLeavesList cs
  | .inlineCode _ => []
  | .link _ _ => []
  | .image _ _ _ => []

/-- The `PlainText` leaves of a span list, in document order. -/
def plainLeavesList : List Span → List (List Char)
  | [] => []
  | s :: rest => plainLeaves s ++ plainLeavesList rest

end

mutual

/-- The rendered leaf text of a span, in document order: links render
their text, inline code its contents, images only their caption. -/
def flattenSpan : Span → List Char
  | .text s => s
  | .bold cs => flattenSpanList cs
  | .italic cs => flattenSpanList cs
  | .strikethrough cs => flattenSpanList cs
  | .inlineCode s => s
  | .link t _ => t
  | .image _ _ cap => cap.getD []

/-- The rendered leaf text of a span list, in document order. -/
def flattenSpanList : List Span → List Char
  | [] => []
  | s :: rest => flattenSpan s ++ flattenSpanList rest

end

example :
    (processFormattingWithCounter 30 "*italic **and bold** text*".toList 0).map Prod.fst =
      some [Span.text "*italic ".toList, Span.bold [Span.text "and bold".toList],
        Span.text " text*".toList] := by rfl

example :
    (processFormattingWithCounter 30 "**bold *and italic* text**".toList 0).map Prod.fst =
      some [Span.bold [Span.text "bold ".toList, Span.italic [Span.text "and italic".toList],
        Span.text " text".toList]] := by rfl

example :
    (processFormattingWithCounter 30 "`code with *asterisks*`".toList 0).map Prod.fst =
      some [Span.text "`code with ".toList, Span.italic [Span.text "asterisks".toList],
        Span.text "`".toList] := by rfl

example :
    (processFormattingWithCounter 10 "`[x](y)`".toList 0).map Prod.fst =
      some [Span.inlineCode "[x](y)".toList] := by rfl

example :
    (processFormattingWithCounter 10 "[x](y)".toList 0).map Prod.fst =
      some [Span.link "x".toList "y".toList] := by rfl

/-- A styled segment of a highlighted code line. -/
inductive HLSeg where
  | plainSeg (s : List Char)
  | stringSeg (s : List Char)
  | keywordSeg (s : List Char)
  | commentSeg (s : List Char)
  deriving Repr, DecidableEq

/-- The highlighter output: a single plain text for unsupported
languages, or a list of per-line segment lists. -/
inductive HLResult where
  | whole (s : List Char)
  | lines (ls : List (List HLSeg))
  deriving Repr, DecidableEq

/-- The fixed set of languages the highlighter supports. -/
def supportedLanguages : List (List Char) :=
  ["javascript", "typescript", "python", "java", "csharp", "cpp", "go",
    "rust", "swift"].map String.toList

/-- The keyword alternation of the per-language keyword regex, in
source order. -/
def keywordList (lang : List Char) : List (List Char) :=
  (if lang = "javascript".toList then
    ["const", "let", "var", "function", "return", "if", "else", "for",
      "while", "class", "import", "export", "from", "of", "in", "true",
      "false", "null", "undefined", "this", "new", "try", "catch",
      "throw", "async", "await"]
  else if lang = "typescript".toList then
    ["const", "let", "var", "function", "return", "if", "else", "for",
      "while", "class", "import", "export", "from", "of", "in", "true",
      "false", "null", "undefined", "this", "new", "try", "catch",
      "throw", "async", "await", "interface", "type", "enum"]
  else if lang = "python".toList then
    ["def", "class", "if", "elif", "else", "for", "while", "return",
      "import", "from", "as", "try", "except", "finally", "raise",
      "with", "in", "is", "not", "and", "or", "True", "False", "None"]
  else if lang = "java".toList then
    ["public", "private", "protected", "class", "interface", "enum",
      "extends", "implements", "return", "if", "else", "for", "while",
      "new", "try", "catch", "throw", "throws", "static", "final",
      "void", "int", "boolean", "String"]
  else if lang = "csharp".toList then
    ["public", "private", "protected", "class", "interface", "enum",
      "struct", "return", "if", "else", "for", "foreach", "while",
      "new", "try", "catch", "throw", "using", "static", "readonly",
      "void", "int", "bool", "string"]
  else if lang = "cpp".toList then
    ["class", "struct", "return", "if", "else", "for", "while", "new",
      "try", "catch", "throw", "using", "namespace", "template",
      "typename", "const", "auto", "static", "void", "int", "bool",
      "char", "float", "double"]
  else if lang = "go".toList then
    ["func", "package", "import", "return", "if", "else", "for",
      "range", "switch", "case", "defer", "go", "chan", "var", "const",
      "struct", "interface", "map", "type"]
  else if lang = "rust".toList then
    ["fn", "let", "mut", "const", "use", "mod", "struct", "enum",
      "trait", "impl", "pub", "return", "if", "else", "for", "while",
      "loop", "match", "self", "Self", "crate", "super"]
  else if lang = "swift".toList then
    ["func", "var", "let", "return", "if", "else", "for", "while",
      "guard", "switch", "case", "class", "struct", "enum", "protocol",
      "extension", "import", "self", "Self"]
  else []).map String.toList

/-- Leftmost match of the python comment regex `(#.*)$`: splits the
line at the first hash character. -/
def findHashComment : List Char → Option (List Char × List Char)
  | [] => none
  | c :: rest =>
    if c = '#' then some ([], c :: rest)
    else (findHashComment rest).map fun p => (c :: p.1, p.2)

/-- Whether a suffix is a block comment reaching the end of the line:
it starts with an opening marker and ends with a closing marker. -/
def isBlockComment (l : List Char) : Bool :=
  l.take 2 = ['/', '*'] && (l.reverse.take 2 = ['/', '*']) && decide (4 ≤ l.length)

/-- Leftmost match of the comment regex for the slash-comment
languages: a line comment running to the end, or a block comment whose
closer sits at the end of the line. -/
def findSlashComment : List Char → Option (List Char × List Char)
  | [] => none
  | c :: rest =>
    if (c :: rest).take 2 = ['/', '/'] then some ([], c :: rest)
    else if isBlockComment (c :: rest) then some ([], c :: rest)
    else (findSlashComment rest).map fun p => (c :: p.1, p.2)

/-- Lazy scan of a quoted-string body `(.*?)` up to the closing quote,
which is checked before each extension. -/
def scanInner0 (d : Char) : List Char → Option (List Char × List Char)
  | [] => none
  | c :: rest =>
    if c = d then some ([], rest)
    else if isDotChar c then (scanInner0 d rest).map fun p => (c :: p.1, p.2)
    else none

/-- Leftmost match of the string regex: a single, double or backtick
quote, a lazy body, and the matching closing quote; returns the text
before the match, the match including its quotes, and the remainder. -/
def findString : List Char → Option (List Char × List Char × List Char)
  | [] => none
  | c :: rest =>
    match (if c = '\'' || c = '"' || c = '`' then scanInner0 c rest else none) with
    | some (inner, suf) => some ([], c :: inner ++ [c], suf)
    | none => (findString rest).map fun q => (c :: q.1, q.2.1, q.2.2)

/-- First keyword of the list that matches at the head of `l` with a
word boundary after it. -/
def kwHere (kws : List (List Char)) (l : List Char) : Option (List Char) :=
  match kws with
  | [] => none
  | k :: ks =>
    if l.take k.length = k &&
        (match l.drop k.length with
         | [] => true
         | c :: _ => !isWordChar c) then some k
    else kwHere ks l

/-- Fueled scan of `processKeywords`: accumulates plain characters and
emits keyword segments at word boundaries. -/
def kwScanAux : Nat → List (List Char) → List Char → Option Char → List Char →
    Option (List HLSeg)
  | 0, _, _, _, _ => none
  | _ + 1, _, acc, _, [] =>
    some (if acc.isEmpty then [] else [HLSeg.plainSeg acc.reverse])
  | n + 1, kws, acc, prev, c :: rest =>
    let boundaryOk := match prev with
      | none => true
      | some p => !isWordChar p
    match (if boundaryOk then kwHere kws (c :: rest) else none) with
    | some k => do
      let tl ← kwScanAux n kws [] (some (k.getLastD c)) ((c :: rest).drop k.length)
      some ((if acc.isEmpty then [] else [HLSeg.plainSeg acc.reverse]) ++
        HLSeg.keywordSeg k :: tl)
    | none => kwScanAux n kws (c :: acc) (some c) rest

/-- The helper `processKeywords` of the source: wrap keyword matches of
a plain chunk in keyword segments, leaving the rest plain. -/
def processKeywords (kws : List (List Char)) (text : List Char) : Option (List HLSeg) :=
  kwScanAux (text.length + 1) kws [] none text

/-- Fueled loop over the string matches of a chunk: keyword-process the
text between strings and wrap each string match. -/
def stringKeywordSegs : Nat → List (List Char) → List Char → Option (List HLSeg)
  | 0, _, _ => none
  | n + 1, kws, text =>
    match findString text with
    | none =>
      if text.isEmpty then some []
      else processKeywords kws text
    | some (before, mtch, after) => do
      let pre ← if before.isEmpty then some [] else processKeywords kws before
      let tl ← stringKeywordSegs n kws after
      some (pre ++ HLSeg.stringSeg mtch :: tl)

/-- Highlight of one code line: split off the trailing comment, then
strings, then keywords, falling back to the raw line when nothing was
produced. -/
def highlightLine (lang : List Char) (line : List Char) : Option (List HLSeg) := do
  let kws := keywordList lang
  let segs ←
    match (if lang = "python".toList then findHashComment line
           else findSlashComment line) with
    | some (before, comment) => do
      let pre ← stringKeywordSegs (before.length + 1) kws before
      some (pre ++ [HLSeg.commentSeg comment])
    | none => stringKeywordSegs (line.length + 1) kws line
  some (if segs.isEmpty then [HLSeg.plainSeg line] else segs)

/-- The `CodeHighlighter` component: unsupported or missing languages
are rendered as the unmodified code in a single text node; supported
languages are highlighted line by line. -/
def codeHighlighter (code : List Char) (language : List Char) : Option HLResult :=
  if language.isEmpty || !supportedLanguages.contains language then
    some (HLResult.whole code)
  else do
    let ls ← (code.splitOn '
').mapM (highlightLine language)
    some (HLResult.lines ls)

/-- A rendered list item: marker, bullet flag, inline content and
nested children. -/
inductive LNode where
  | mk (bulletOrNumber : List Char) (isBulletList : Bool)
      (content : List Span) (children : List LNode)

/-- The recursive list renderer `renderListItems` of the source, with
explicit fuel: an item whose level equals the parent level becomes a
node whose children are rendered from the following items of strictly
greater level; any other item is skipped. -/
def renderListItems : Nat → List ProcessedLine → Nat → Option (List LNode)
  | 0, _, _ => none
  | _ + 1, [], _ => some []
  | n + 1, it :: rest, parentLevel =>
    if it.level = parentLevel then do
      let nested := rest.takeWhile fun x => parentLevel < x.level
      let rest2 := rest.dropWhile fun x => parentLevel < x.level
      let inl ← parseInlineFormatting it.content
      let kids ← renderListItems n nested (parentLevel + 1)
      let tl ← renderListItems n rest2 parentLevel
      some (LNode.mk it.bulletOrNumber it.isBulletList inl kids :: tl)
    else renderListItems n rest parentLevel

/-- A rendered line-level node of a text block. -/
inductive RNode where
  | header (level : Nat) (content : List Span)
  | blockquote (content : List Span)
  | horizontalRule
  | plainLine (content : List Span) (newline : Bool)
  | listGroup (items : List LNode)

/-- Match of the heading regex on a trimmed line: one to six hashes,
whitespace, then nonempty content. -/
def headerMatch (trimmed : List Char) : Option (Nat × List Char) :=
  let hashes := trimmed.takeWhile fun c => c = '#'
  if 1 ≤ hashes.length && hashes.length ≤ 6 then
    let rest := trimmed.drop hashes.length
    if (rest.takeWhile isJsWs).isEmpty then none
    else
      let content := rest.dropWhile isJsWs
      if content.isEmpty then none else some (hashes.length, content)
  else none

/-- Match of the horizontal-rule regex on a trimmed line: one marker
character repeated at least three times. -/
def hrMatch (trimmed : List Char) : Bool :=
  match trimmed with
  | c :: rest =>
    (c = '-' || c = '*' || c = '_') && rest.all (fun x => x = c) &&
      decide (3 ≤ trimmed.length)
  | [] => false

/-- Classification and rendering of a non-list line, in source order:
heading, blockquote, horizontal rule, then plain text with the newline
appended for every line but the last. -/
def classifyNonList (pl : ProcessedLine) (totalLines : Nat) : Option RNode :=
  match headerMatch (jsTrim pl.line) with
  | some (level, content) => do
    let spans ← parseInlineFormatting content
    some (RNode.header level spans)
  | none =>
    if (jsTrim pl.line).take 1 = ['>'] then do
      let spans ← parseInlineFormatting (jsTrim ((jsTrim pl.line).drop 1))
      some (RNode.blockquote spans)
    else if hrMatch (jsTrim pl.line) then some RNode.horizontalRule
    else do
      let spans ← parseInlineFormatting pl.line
      some (RNode.plainLine spans (decide (pl.index < totalLines - 1)))

/-- The main rendering loop over the classified lines of a text block:
maximal runs of list items at or above the leading item level form one
list group, other lines are classified individually. -/
def renderLines : Nat → List ProcessedLine → Nat → Option (List RNode)
  | 0, _, _ => none
  | _ + 1, [], _ => some []
  | n + 1, pl :: rest, totalLines =>
    if pl.isListItem then do
      let run := pl :: rest.takeWhile fun x => x.isListItem && decide (pl.level ≤ x.level)
      let rest2 := rest.dropWhile fun x => x.isListItem && decide (pl.level ≤ x.level)
      let items ← renderListItems (run.length + 1) run pl.level
      let tl ← renderLines n rest2 totalLines
      some (RNode.listGroup items :: tl)
    else do
      let node ← classifyNonList pl totalLines
      let tl ← renderLines n rest totalLines
      some (node :: tl)

/-- A rendered top-level block. -/
inductive RBlock where
  | codeB (language : List Char) (hl : HLResult)
  | textB (nodes : List RNode)

/-- Rendering of one block: code blocks are highlighted, text blocks
are split into lines, classified and rendered. -/
def renderBlock (b : ContentBlock) : Option RBlock :=
  match b with
  | .codeBlock lang content => (codeHighlighter content lang).map (RBlock.codeB lang)
  | .text content =>
    let lines := content.splitOn '
'
    let pls := processLists lines
    (renderLines (pls.length + 1) pls lines.length).map RBlock.textB

/-- The full rendering pipeline of the `FormattedText` component. -/
def render (text : List Char) : Option (List RBlock) := do
  let blocks ← textWithCodeBlocks text
  blocks.mapM renderBlock

mutual

/-- The rendered leaf text of a list node, in document order: the
marker, the inline content, then the children. -/
def flattenLNode : LNode → List Char
  | .mk marker _ content kids =>
    marker ++ flattenSpanList content ++ flattenLNodeList kids

/-- The rendered leaf text of a list forest. -/
def flattenLNodeList : List LNode → List Char
  | [] => []
  | nd :: rest => flattenLNode nd ++ flattenLNodeList rest

end

/-- The text carried by one highlighted segment. -/
def segText : HLSeg → List Char
  | .plainSeg s => s
  | .stringSeg s => s
  | .keywordSeg s => s
  | .commentSeg s => s

/-- The rendered text of a highlighter output, newlines restored
between lines. -/
def flattenHL : HLResult → List Char
  | .whole s => s
  | .lines ls => List.intercalate ['\n'] (ls.map fun segs => (segs.map segText).flatten)

/-- The rendered leaf text of a line-level node. -/
def flattenRNode : RNode → List Char
  | .header _ c => flattenSpanList c
  | .blockquote c => flattenSpanList c
  | .horizontalRule => []
  | .plainLine c nl => flattenSpanList c ++ (if nl then ['\n'] else [])
  | .listGroup items => flattenLNodeList items

/-- The rendered leaf text of a top-level block, including the language
caption of a code block. -/
def flattenRBlock : RBlock → List Char
  | .codeB lang hl => (if lang.isEmpty then [] else lang) ++ flattenHL hl
  | .textB ns => (ns.map flattenRNode).flatten

/-- All rendered leaf text of a document, in document order. -/
def flattenDoc (bs : List RBlock) : List Char :=
  (bs.map flattenRBlock).flatten

example : (render "- x\n    - y".toList).isSome = true := by rfl

example :
    ((render "- x\n    - y".toList).map (fun bs => (flattenDoc bs).contains 'y')) =
      some false := by rfl

example :
    ((render "- x\n    - y".toList).map (fun bs => (flattenDoc bs).contains 'x')) =
      some true := by rfl

example :
    textWithCodeBlocks "```python\ndef f():\n    pass\n```".toList =
      some [ContentBlock.codeBlock "python".toList "def f():\n    pass\n".toList] := by
  rfl

example :
    codeHighlighter "a\nb".toList "brainfuck".toList =
      some (HLResult.whole "a\nb".toList) := by rfl

mutual

/-- Whether a span tree contains an italic node. -/
def containsItalic : Span → Bool
  | .italic _ => true
  | .bold cs => containsItalicList cs
  | .strikethrough cs => containsItalicList cs
  | .text _ => false
  | .inlineCode _ => false
  | .link _ _ => false
  | .image _ _ _ => false

/-- Whether a span list contains an italic node. -/
def containsItalicList : List Span → Bool
  | [] => false
  | s :: rest => containsItalic s || containsItalicList rest

end

mutual

/-- Whether a span tree contains an inline-code node. -/
def containsCodeSpan : Span → Bool
  | .inlineCode _ => true
  | .bold cs => containsCodeSpanList cs
  | .italic cs => containsCodeSpanList cs
  | .strikethrough cs => containsCodeSpanList cs
  | .text _ => false
  | .link _ _ => false
  | .image _ _ _ => false

/-- Whether a span list contains an inline-code node. -/
def containsCodeSpanList : List Span → Bool
  | [] => false
  | s :: rest => containsCodeSpan s || containsCodeSpanList rest

end

/-- Modelled from the spec for comparison with the source highlighter:
the claimed unsupported-language output of one plain span per line,
newline-joined. -/
def specPerLineSpans (code : List Char) : HLResult :=
  HLResult.lines ((code.splitOn '\n').map fun ln => [HLSeg.plainSeg ln])

theorem length_takeWhile_le' (p : α → Bool) :
    ∀ l : List α, (l.takeWhile p).length ≤ l.length := by
  intro l
  induction l with
  | nil => simp
  | cons a l ih =>
    by_cases h : p a
    · simp only [List.takeWhile_cons_of_pos h, List.length_cons]
      omega
    · simp [List.takeWhile_cons_of_neg h]

theorem length_dropWhile_le' (p : α → Bool) (l : List α) :
    (l.dropWhile p).length ≤ l.length := by
  rw [dropWhile_as_drop]
  simp

theorem scanInner2_length {d : Char} :
    ∀ {l inner suf : List Char}, scanInner2 d l = some (inner, suf) →
      inner ≠ [] ∧ inner.length + 2 + suf.length = l.length := by
  intro l
  induction l with
  | nil => intro inner suf h; simp [scanInner2] at h
  | cons c rest ih =>
    intro inner suf h
    rw [scanInner2] at h
    by_cases h1 : (!isDotChar c) = true
    · rw [if_pos h1] at h; cases h
    · rw [if_neg h1] at h
      by_cases h2 : rest.take 2 = [d, d]
      · rw [if_pos h2] at h
        simp only [Option.some.injEq, Prod.mk.injEq] at h
        obtain ⟨ha, hb⟩ := h
        subst ha; subst hb
        have h2' := congrArg List.length h2
        simp only [List.length_take, List.length_cons, List.length_nil] at h2'
        refine ⟨by simp, ?_⟩
        simp only [List.length_cons, List.length_nil, List.length_drop]
        omega
      · rw [if_neg h2] at h
        simp only [Option.map_eq_some'] at h
        obtain ⟨⟨i', s'⟩, hp, he⟩ := h
        simp only [Prod.mk.injEq] at he
        obtain ⟨he1, he2⟩ := he
        subst he1; subst he2
        obtain ⟨hne, hlen⟩ := ih hp
        refine ⟨by simp, ?_⟩
        simp only [List.length_cons]
        omega

theorem scanInner1_length {d : Char} :
    ∀ {l inner suf : List Char}, scanInner1 d l = some (inner, suf) →
      inner ≠ [] ∧ inner.length + 1 + suf.length = l.length := by
  intro l
  induction l with
  | nil => intro inner suf h; simp [scanInner1] at h
  | cons c rest ih =>
    intro inner suf h
    rw [scanInner1] at h
    by_cases h1 : (!isDotChar c) = true
    · rw [if_pos h1] at h; cases h
    · rw [if_neg h1] at h
      by_cases h2 : rest.take 1 = [d]
      · rw [if_pos h2] at h
        simp only [Option.some.injEq, Prod.mk.injEq] at h
        obtain ⟨ha, hb⟩ := h
        subst ha; subst hb
        have h2' := congrArg List.length h2
        simp only [List.length_take, List.length_cons, List.length_nil] at h2'
        refine ⟨by simp, ?_⟩
        simp only [List.length_cons, List.length_nil, List.length_drop]
        omega
      · rw [if_neg h2] at h
        simp only [Option.map_eq_some'] at h
        obtain ⟨⟨i', s'⟩, hp, he⟩ := h
        simp only [Prod.mk.injEq] at he
        obtain ⟨he1, he2⟩ := he
        subst he1; subst he2
        obtain ⟨hne, hlen⟩ := ih hp
        refine ⟨by simp, ?_⟩
        simp only [List.length_cons]
        omega

theorem scanInner0_length {d : Char} :
    ∀ {l inner suf : List Char}, scanInner0 d l = some (inner, suf) →
      inner.length + 1 + suf.length = l.length := by
  intro l
  induction l with
  | nil => intro inner suf h; simp [scanInner0] at h
  | cons c rest ih =>
    intro inner suf h
    rw [scanInner0] at h
    by_cases h1 : c = d
    · rw [if_pos h1] at h
      simp only [Option.some.injEq, Prod.mk.injEq] at h
      obtain ⟨ha, hb⟩ := h
      subst ha; subst hb
      simp only [List.length_nil, List.length_cons]
      omega
    · rw [if_neg h1] at h
      by_cases h2 : isDotChar c = true
      · rw [if_pos h2] at h
        simp only [Option.map_eq_some'] at h
        obtain ⟨⟨i', s'⟩, hp, he⟩ := h
        simp only [Prod.mk.injEq] at he
        obtain ⟨he1, he2⟩ := he
        subst he1; subst he2
        have hlen := ih hp
        simp only [List.length_cons]
        omega
      · rw [if_neg h2] at h; cases h

theorem boldAt_length {l inner suf : List Char}
    (h : boldAt l = some (inner, suf)) :
    inner ≠ [] ∧ inner.length + 4 + suf.length = l.length := by
  unfold boldAt at h
  split at h
  · rename_i rest
    obtain ⟨hne, hlen⟩ := scanInner2_length h
    exact ⟨hne, by simp only [List.length_cons]; omega⟩
  · cases h

theorem italicAt_length {l inner suf : List Char}
    (h : italicAt l = some (inner, suf)) :
    inner ≠ [] ∧ inner.length + 2 + suf.length = l.length := by
  unfold italicAt at h
  split at h
  · rename_i rest
    obtain ⟨hne, hlen⟩ := scanInner1_length h
    exact ⟨hne, by simp only [List.length_cons]; omega⟩
  · cases h

theorem strikeAt_length {l inner suf : List Char}
    (h : strikeAt l = some (inner, suf)) :
    inner ≠ [] ∧ inner.length + 4 + suf.length = l.length := by
  unfold strikeAt at h
  split at h
  · rename_i rest
    obtain ⟨hne, hlen⟩ := scanInner2_length h
    exact ⟨hne, by simp only [List.length_cons]; omega⟩
  · cases h

theorem codeAt_length {l inner suf : List Char}
    (h : codeAt l = some (inner, suf)) :
    inner ≠ [] ∧ inner.length + 2 + suf.length = l.length := by
  unfold codeAt at h
  split at h
  · rename_i rest
    simp only at h
    by_cases h1 : (rest.takeWhile fun c => decide (c ≠ '`')).isEmpty = true
    · rw [if_pos h1] at h; cases h
    · rw [if_neg h1] at h
      split at h
      · rename_i suf' heq
        simp only [Option.some.injEq, Prod.mk.injEq] at h
        obtain ⟨ha, hb⟩ := h
        subst ha; subst hb
        have hlen := congrArg List.length heq
        simp only [List.length_drop, List.length_cons] at hlen
        have hle := length_takeWhile_le' (fun c => decide (c ≠ '`')) rest
        refine ⟨by simpa [List.isEmpty_iff] using h1, ?_⟩
        simp only [List.length_cons]
        omega
      · cases h
  · cases h

theorem linkScanT_length :
    ∀ {l t u suf : List Char}, linkScanT l = some (t, u, suf) →
      t ≠ [] ∧ u ≠ [] ∧ t.length + 3 + u.length + suf.length = l.length := by
  intro l
  induction l with
  | nil => intro t u suf h; simp [linkScanT] at h
  | cons c rest ih =>
    intro t u suf h
    rw [linkScanT] at h
    by_cases h1 : (!isDotChar c) = true
    · rw [if_pos h1] at h; cases h
    · rw [if_neg h1] at h
      by_cases h2 : rest.take 2 = [']', '(']
      · rw [if_pos h2] at h
        cases hs : scanInner1 ')' (rest.drop 2) with
        | some p =>
          obtain ⟨u', suf'⟩ := p
          rw [hs] at h
          simp only [Option.some.injEq, Prod.mk.injEq] at h
          obtain ⟨ha, hb, hc⟩ := h
          subst ha; subst hb; subst hc
          obtain ⟨hne, hlen⟩ := scanInner1_length hs
          have h2' := congrArg List.length h2
          simp only [List.length_take, List.length_cons, List.length_nil] at h2'
          refine ⟨by simp, hne, ?_⟩
          simp only [List.length_drop] at hlen
          simp only [List.length_cons, List.length_nil]
          omega
        | none =>
          rw [hs] at h
          simp only [Option.map_eq_some'] at h
          obtain ⟨⟨t', u', s'⟩, hp, he⟩ := h
          simp only [Prod.mk.injEq] at he
          obtain ⟨he1, he2, he3⟩ := he
          subst he1; subst he2; subst he3
          obtain ⟨hne1, hne2, hlen⟩ := ih hp
          refine ⟨by simp, hne2, ?_⟩
          simp only [List.length_cons]
          omega
      · rw [if_neg h2] at h
        simp only [Option.map_eq_some'] at h
        obtain ⟨⟨t', u', s'⟩, hp, he⟩ := h
        simp only [Prod.mk.injEq] at he
        obtain ⟨he1, he2, he3⟩ := he
        subst he1; subst he2; subst he3
        obtain ⟨hne1, hne2, hlen⟩ := ih hp
        refine ⟨by simp, hne2, ?_⟩
        simp only [List.length_cons]
        omega

theorem capScan_length :
    ∀ {l cap suf : List Char}, capScan l = some (cap, suf) →
      cap.length + 2 + suf.length = l.length := by
  intro l
  induction l with
  | nil => intro cap suf h; simp [capScan] at h
  | cons c rest ih =>
    intro cap suf h
    rw [capScan] at h
    by_cases h1 : (c = '"' && rest.take 1 = [')']) = true
    · rw [if_pos h1] at h
      simp only [Option.some.injEq, Prod.mk.injEq] at h
      obtain ⟨ha, hb⟩ := h
      subst ha; subst hb
      simp only [Bool.and_eq_true, decide_eq_true_eq] at h1
      have h1' := congrArg List.length h1.2
      simp only [List.length_take, List.length_cons, List.length_nil] at h1'
      simp only [List.length_nil, List.length_cons, List.length_drop]
      omega
    · rw [if_neg h1] at h
      by_cases h2 : isDotChar c = true
      · rw [if_pos h2] at h
        simp only [Option.map_eq_some'] at h
        obtain ⟨⟨i', s'⟩, hp, he⟩ := h
        simp only [Prod.mk.injEq] at he
        obtain ⟨he1, he2⟩ := he
        subst he1; subst he2
        have hlen := ih hp
        simp only [List.length_cons]
        omega
      · rw [if_neg h2] at h; cases h

theorem imageTailCap_length {l cap suf : List Char}
    (h : imageTailCap l = some (cap, suf)) : suf.length + 3 ≤ l.length := by
  rw [imageTailCap] at h
  split_ifs at h with hws
  split at h
  · rename_i rest hdrop
    have hc := capScan_length h
    have hd := congrArg List.length hdrop
    simp only [List.length_drop, List.length_cons] at hd
    have hle := length_takeWhile_le' isJsWs l
    have hpos : 0 < (l.takeWhile isJsWs).length := by
      cases hl : l.takeWhile isJsWs
      · rw [hl] at hws; simp at hws
      · simp [hl]
    omega
  · cases h

theorem imageTail_length {l suf : List Char} {cap : Option (List Char)}
    (h : imageTail l = some (cap, suf)) : suf.length < l.length := by
  unfold imageTail at h
  split at h
  · rename_i cap' suf' heq
    simp only [Option.some.injEq, Prod.mk.injEq] at h
    obtain ⟨h1, h2⟩ := h
    subst h2
    have := imageTailCap_length heq
    omega
  · rename_i heq
    cases l with
    | nil => exact absurd h (by simp)
    | cons c rest =>
      dsimp only at h
      by_cases hc : c = ')'
      · rw [if_pos hc] at h
        simp only [Option.some.injEq, Prod.mk.injEq] at h
        obtain ⟨h1, h2⟩ := h
        subst h2
        simp
      · rw [if_neg hc] at h
        cases h

set_option maxHeartbeats 1000000 in
theorem imageScanUrl_length :
    ∀ {l url suf : List Char} {cap : Option (List Char)},
      imageScanUrl l = some (url, cap, suf) →
      url.length + suf.length < l.length := by
  intro l
  induction l with
  | nil =>
    intro url suf cap h
    rw [show imageScanUrl ([] : List Char) = none from rfl] at h
    cases h
  | cons c rest ih =>
    intro url suf cap h
    rw [imageScanUrl] at h
    split at h
    · rename_i cap' suf' heq
      simp only [Option.some.injEq, Prod.mk.injEq] at h
      obtain ⟨h1, h2, h3⟩ := h
      subst h1; subst h3
      have := imageTail_length heq
      simpa using this
    · rename_i heq
      by_cases hd : isDotChar c = true
      · rw [if_pos hd] at h
        simp only [Option.map_eq_some'] at h
        obtain ⟨⟨u', cap', s'⟩, hp, he⟩ := h
        simp only [Prod.mk.injEq] at he
        obtain ⟨he1, he2, he3⟩ := he
        subst he1; subst he3
        have := ih hp
        simp only [List.length_cons]
        omega
      · rw [if_neg hd] at h; cases h

theorem imageScanAlt_length :
    ∀ {l alt url suf : List Char} {cap : Option (List Char)},
      imageScanAlt l = some (alt, url, cap, suf) →
      alt.length + url.length + suf.length + 2 < l.length := by
  intro l
  induction l with
  | nil => intro alt url suf cap h; simp [imageScanAlt] at h
  | cons c rest ih =>
    intro alt url suf cap h
    rw [imageScanAlt] at h
    split at h
    · rename_i url' cap' suf' heq
      by_cases h2 : (c :: rest).take 2 = [']', '(']
      · rw [if_pos h2] at heq
        simp only [Option.some.injEq, Prod.mk.injEq] at h
        obtain ⟨h1, hu, hc, hs⟩ := h
        subst h1; subst hu; subst hs
        have hdrop : (c :: rest).drop 2 = rest.drop 1 := rfl
        rw [hdrop] at heq
        have hurl := imageScanUrl_length heq
        have h2' := congrArg List.length h2
        simp only [List.length_take, List.length_cons, List.length_nil] at h2'
        simp only [List.length_drop] at hurl
        simp only [List.length_nil, List.length_cons]
        omega
      · rw [if_neg h2] at heq
        cases heq
    · rename_i heq
      by_cases hd : isDotChar c = true
      · rw [if_pos hd] at h
        simp only [Option.map_eq_some'] at h
        obtain ⟨⟨a', u', cap', s'⟩, hp, he⟩ := h
        simp only [Prod.mk.injEq] at he
        obtain ⟨he1, he2, he3, he4⟩ := he
        subst he1; subst he2; subst he4
        have := ih hp
        simp only [List.length_cons]
        omega
      · rw [if_neg hd] at h; cases h

theorem imageAt_length {l alt url suf : List Char} {cap : Option (List Char)}
    (h : imageAt l = some (alt, url, cap, suf)) :
    alt.length + url.length + suf.length + 4 < l.length := by
  unfold imageAt at h
  split at h
  · rename_i rest
    have := imageScanAlt_length h
    simp only [List.length_cons]
    omega
  · cases h

theorem linkAt_length {l t u suf : List Char}
    (h : linkAt l = some (t, u, suf)) :
    t ≠ [] ∧ u ≠ [] ∧ t.length + 4 + u.length + suf.length = l.length := by
  unfold linkAt at h
  split at h
  · rename_i rest
    obtain ⟨hne1, hne2, hlen⟩ := linkScanT_length h
    exact ⟨hne1, hne2, by simp only [List.length_cons]; omega⟩
  · cases h

theorem findBold_length :
    ∀ {l pre inner suf : List Char}, findBold l = some (pre, inner, suf) →
      inner ≠ [] ∧ pre.length < l.length ∧ inner.length < l.length ∧
        suf.length < l.length := by
  intro l
  induction l with
  | nil => intro pre inner suf h; simp [findBold] at h
  | cons c rest ih =>
    intro pre inner suf h
    rw [findBold] at h
    split at h
    · rename_i inner' suf' hm
      simp only [Option.some.injEq, Prod.mk.injEq] at h
      obtain ⟨h1, h2, h3⟩ := h
      subst h1; subst h2; subst h3
      obtain ⟨hne, hlen⟩ := boldAt_length hm
      simp only [List.length_cons] at hlen
      refine ⟨hne, ?_, ?_, ?_⟩ <;> (simp only [List.length_cons, List.length_nil]; omega)
    · rename_i hm
      simp only [Option.map_eq_some'] at h
      obtain ⟨⟨p', i', s'⟩, hp, he⟩ := h
      simp only [Prod.mk.injEq] at he
      obtain ⟨he1, he2, he3⟩ := he
      subst he1; subst he2; subst he3
      obtain ⟨hne, l1, l2, l3⟩ := ih hp
      refine ⟨hne, ?_, ?_, ?_⟩ <;> (simp only [List.length_cons]; omega)

theorem findItalic_length :
    ∀ {l pre inner suf : List Char}, findItalic l = some (pre, inner, suf) →
      inner ≠ [] ∧ pre.length < l.length ∧ inner.length < l.length ∧
        suf.length < l.length := by
  intro l
  induction l with
  | nil => intro pre inner suf h; simp [findItalic] at h
  | cons c rest ih =>
    intro pre inner suf h
    rw [findItalic] at h
    split at h
    · rename_i inner' suf' hm
      simp only [Option.some.injEq, Prod.mk.injEq] at h
      obtain ⟨h1, h2, h3⟩ := h
      subst h1; subst h2; subst h3
      obtain ⟨hne, hlen⟩ := italicAt_length hm
      simp only [List.length_cons] at hlen
      refine ⟨hne, ?_, ?_, ?_⟩ <;> (simp only [List.length_cons, List.length_nil]; omega)
    · rename_i hm
      simp only [Option.map_eq_some'] at h
      obtain ⟨⟨p', i', s'⟩, hp, he⟩ := h
      simp only [Prod.mk.injEq] at he
      obtain ⟨he1, he2, he3⟩ := he
      subst he1; subst he2; subst he3
      obtain ⟨hne, l1, l2, l3⟩ := ih hp
      refine ⟨hne, ?_, ?_, ?_⟩ <;> (simp only [List.length_cons]; omega)

theorem findStrike_length :
    ∀ {l pre inner suf : List Char}, findStrike l = some (pre, inner, suf) →
      inner ≠ [] ∧ pre.length < l.length ∧ inner.length < l.length ∧
        suf.length < l.length := by
  intro l
  induction l with
  | nil => intro pre inner suf h; simp [findStrike] at h
  | cons c rest ih =>
    intro pre inner suf h
    rw [findStrike] at h
    split at h
    · rename_i inner' suf' hm
      simp only [Option.some.injEq, Prod.mk.injEq] at h
      obtain ⟨h1, h2, h3⟩ := h
      subst h1; subst h2; subst h3
      obtain ⟨hne, hlen⟩ := strikeAt_length hm
      simp only [List.length_cons] at hlen
      refine ⟨hne, ?_, ?_, ?_⟩ <;> (simp only [List.length_cons, List.length_nil]; omega)
    · rename_i hm
      simp only [Option.map_eq_some'] at h
      obtain ⟨⟨p', i', s'⟩, hp, he⟩ := h
      simp only [Prod.mk.injEq] at he
      obtain ⟨he1, he2, he3⟩ := he
      subst he1; subst he2; subst he3
      obtain ⟨hne, l1, l2, l3⟩ := ih hp
      refine ⟨hne, ?_, ?_, ?_⟩ <;> (simp only [List.length_cons]; omega)

theorem findCode_length :
    ∀ {l pre inner suf : List Char}, findCode l = some (pre, inner, suf) →
      inner ≠ [] ∧ pre.length < l.length ∧ inner.length < l.length ∧
        suf.length < l.length := by
  intro l
  induction l with
  | nil => intro pre inner suf h; simp [findCode] at h
  | cons c rest ih =>
    intro pre inner suf h
    rw [findCode] at h
    split at h
    · rename_i inner' suf' hm
      simp only [Option.some.injEq, Prod.mk.injEq] at h
      obtain ⟨h1, h2, h3⟩ := h
      subst h1; subst h2; subst h3
      obtain ⟨hne, hlen⟩ := codeAt_length hm
      simp only [List.length_cons] at hlen
      refine ⟨hne, ?_, ?_, ?_⟩ <;> (simp only [List.length_cons, List.length_nil]; omega)
    · rename_i hm
      simp only [Option.map_eq_some'] at h
      obtain ⟨⟨p', i', s'⟩, hp, he⟩ := h
      simp only [Prod.mk.injEq] at he
      obtain ⟨he1, he2, he3⟩ := he
      subst he1; subst he2; subst he3
      obtain ⟨hne, l1, l2, l3⟩ := ih hp
      refine ⟨hne, ?_, ?_, ?_⟩ <;> (simp only [List.length_cons]; omega)

theorem findLink_length :
    ∀ {l pre t u suf : List Char}, findLink l = some (pre, t, u, suf) →
      pre.length < l.length ∧ suf.length < l.length := by
  intro l
  induction l with
  | nil => intro pre t u suf h; simp [findLink] at h
  | cons c rest ih =>
    intro pre t u suf h
    rw [findLink] at h
    split at h
    · rename_i t' u' suf' hm
      simp only [Option.some.injEq, Prod.mk.injEq] at h
      obtain ⟨h1, h2, h3, h4⟩ := h
      subst h1; subst h2; subst h3; subst h4
      obtain ⟨hne1, hne2, hlen⟩ := linkAt_length hm
      constructor
      · simp only [List.length_nil]
        omega
      · omega
    · rename_i hm
      simp only [Option.map_eq_some'] at h
      obtain ⟨⟨p', t', u', s'⟩, hp, he⟩ := h
      simp only [Prod.mk.injEq] at he
      obtain ⟨he1, he2, he3, he4⟩ := he
      subst he1; subst he2; subst he3; subst he4
      obtain ⟨l1, l2⟩ := ih hp
      refine ⟨?_, ?_⟩ <;> (simp only [List.length_cons]; omega)

theorem findImage_length :
    ∀ {l pre alt url suf : List Char} {cap : Option (List Char)},
      findImage l = some (pre, alt, url, cap, suf) →
      pre.length < l.length ∧ suf.length < l.length := by
  intro l
  induction l with
  | nil => intro pre alt url suf cap h; simp [findImage] at h
  | cons c rest ih =>
    intro pre alt url suf cap h
    rw [findImage] at h
    split at h
    · rename_i alt' url' cap' suf' hm
      simp only [Option.some.injEq, Prod.mk.injEq] at h
      obtain ⟨h1, h2, h3, h4, h5⟩ := h
      subst h1; subst h2; subst h3; subst h5
      have := imageAt_length hm
      constructor
      · simp only [List.length_nil]
        omega
      · omega
    · rename_i hm
      simp only [Option.map_eq_some'] at h
      obtain ⟨⟨p', a', u', cap', s'⟩, hp, he⟩ := h
      simp only [Prod.mk.injEq] at he
      obtain ⟨he1, he2, he3, he4, he5⟩ := he
      subst he1; subst he2; subst he3; subst he5
      obtain ⟨l1, l2⟩ := ih hp
      refine ⟨?_, ?_⟩ <;> (simp only [List.length_cons]; omega)

theorem findString_length :
    ∀ {l before mtch after : List Char}, findString l = some (before, mtch, after) →
      before.length < l.length ∧ after.length + 2 ≤ l.length := by
  intro l
  induction l with
  | nil => intro b m a h; simp [findString] at h
  | cons c rest ih =>
    intro b m a h
    rw [findString] at h
    split at h
    · rename_i inner' suf' heq
      split_ifs at heq with hq
      · simp only [Option.some.injEq, Prod.mk.injEq] at h
        obtain ⟨h1, h2, h3⟩ := h
        subst h1; subst h2; subst h3
        have := scanInner0_length heq
        refine ⟨by simp, ?_⟩
        simp only [List.length_cons, List.length_nil]
        omega
    · rename_i heq
      simp only [Option.map_eq_some'] at h
      obtain ⟨⟨b', m', a'⟩, hp, he⟩ := h
      simp only [Prod.mk.injEq] at he
      obtain ⟨he1, he2, he3⟩ := he
      subst he1; subst he2; subst he3
      obtain ⟨l1, l2⟩ := ih hp
      refine ⟨?_, ?_⟩ <;> (simp only [List.length_cons]; omega)

theorem processFormattingWithCounter_isSome :
    ∀ n l cnt, List.length l < n →
      (processFormattingWithCounter n l cnt).isSome = true := by
  intro n
  induction n with
  | zero => intro l cnt h; omega
  | succ n ih =>
    intro l cnt h
    rw [processFormattingWithCounter]
    by_cases he : l.isEmpty = true
    · simp [he]
    · rw [if_neg he]
      cases hI : findImage l with
      | some q =>
        obtain ⟨pre, alt, url, cap, suf⟩ := q
        obtain ⟨hp, hs⟩ := findImage_length hI
        dsimp only
        obtain ⟨⟨preR, c1⟩, hpre⟩ :=
          Option.isSome_iff_exists.mp (ih pre cnt (by omega))
        obtain ⟨⟨sufR, c3⟩, hsuf⟩ :=
          Option.isSome_iff_exists.mp (ih suf (c1 + 1) (by omega))
        rw [hpre]
        simp only [Option.bind_eq_bind, Option.some_bind]
        rw [hsuf]
        simp only [Option.bind_eq_bind, Option.some_bind]
        rfl
      | none =>
        dsimp only
        cases hB : findBold l with
        | some q =>
          obtain ⟨pre, inner, suf⟩ := q
          obtain ⟨hni, hp, hin, hs⟩ := findBold_length hB
          dsimp only
          obtain ⟨⟨preR, c1⟩, hpre⟩ :=
            Option.isSome_iff_exists.mp (ih pre cnt (by omega))
          obtain ⟨⟨innerR, c2⟩, hinner⟩ :=
            Option.isSome_iff_exists.mp (ih inner c1 (by omega))
          obtain ⟨⟨sufR, c4⟩, hsuf⟩ :=
            Option.isSome_iff_exists.mp (ih suf (c2 + 1) (by omega))
          rw [hpre]
          simp only [Option.bind_eq_bind, Option.some_bind]
          rw [hinner]
          simp only [Option.bind_eq_bind, Option.some_bind]
          rw [hsuf]
          simp only [Option.bind_eq_bind, Option.some_bind]
          rfl
        | none =>
          dsimp only
          cases hIt : findItalic l with
          | some q =>
            obtain ⟨pre, inner, suf⟩ := q
            obtain ⟨hni, hp, hin, hs⟩ := findItalic_length hIt
            dsimp only
            obtain ⟨⟨preR, c1⟩, hpre⟩ :=
              Option.isSome_iff_exists.mp (ih pre cnt (by omega))
            obtain ⟨⟨innerR, c2⟩, hinner⟩ :=
              Option.isSome_iff_exists.mp (ih inner c1 (by omega))
            obtain ⟨⟨sufR, c4⟩, hsuf⟩ :=
              Option.isSome_iff_exists.mp (ih suf (c2 + 1) (by omega))
            rw [hpre]
            simp only [Option.bind_eq_bind, Option.some_bind]
            rw [hinner]
            simp only [Option.bind_eq_bind, Option.some_bind]
            rw [hsuf]
            simp only [Option.bind_eq_bind, Option.some_bind]
            rfl
          | none =>
            dsimp only
            cases hS : findStrike l with
            | some q =>
              obtain ⟨pre, inner, suf⟩ := q
              obtain ⟨hni, hp, hin, hs⟩ := findStrike_length hS
              dsimp only
              obtain ⟨⟨preR, c1⟩, hpre⟩ :=
                Option.isSome_iff_exists.mp (ih pre cnt (by omega))
              obtain ⟨⟨innerR, c2⟩, hinner⟩ :=
                Option.isSome_iff_exists.mp (ih inner c1 (by omega))
              obtain ⟨⟨sufR, c4⟩, hsuf⟩ :=
                Option.isSome_iff_exists.mp (ih suf (c2 + 1) (by omega))
              rw [hpre]
              simp only [Option.bind_eq_bind, Option.some_bind]
              rw [hinner]
              simp only [Option.bind_eq_bind, Option.some_bind]
              rw [hsuf]
              simp only [Option.bind_eq_bind, Option.some_bind]
              rfl
            | none =>
              dsimp only
              cases hC : findCode l with
              | some q =>
                obtain ⟨pre, codeText, suf⟩ := q
                obtain ⟨hni, hp, hin, hs⟩ := findCode_length hC
                dsimp only
                obtain ⟨⟨preR, c1⟩, hpre⟩ :=
                  Option.isSome_iff_exists.mp (ih pre cnt (by omega))
                obtain ⟨⟨sufR, c3⟩, hsuf⟩ :=
                  Option.isSome_iff_exists.mp (ih suf (c1 + 1) (by omega))
                rw [hpre]
                simp only [Option.bind_eq_bind, Option.some_bind]
                rw [hsuf]
                simp only [Option.bind_eq_bind, Option.some_bind]
                rfl
              | none =>
                dsimp only
                cases hL : findLink l with
                | some q =>
                  obtain ⟨pre, t, u, suf⟩ := q
                  obtain ⟨hp, hs⟩ := findLink_length hL
                  dsimp only
                  obtain ⟨⟨preR, c1⟩, hpre⟩ :=
                    Option.isSome_iff_exists.mp (ih pre cnt (by omega))
                  obtain ⟨⟨sufR, c3⟩, hsuf⟩ :=
                    Option.isSome_iff_exists.mp (ih suf (c1 + 1) (by omega))
                  rw [hpre]
                  simp only [Option.bind_eq_bind, Option.some_bind]
                  rw [hsuf]
                  simp only [Option.bind_eq_bind, Option.some_bind]
                  rfl
                | none => dsimp only; rfl

theorem parseInlineFormatting_isSome (l : List Char) :
    (parseInlineFormatting l).isSome = true := by
  rw [parseInlineFormatting]
  simp only [Option.isSome_map']
  exact processFormattingWithCounter_isSome _ l 0 (by omega)

theorem plainLeavesList_append (xs ys : List Span) :
    plainLeavesList (xs ++ ys) = plainLeavesList xs ++ plainLeavesList ys := by
  induction xs with
  | nil => simp [plainLeavesList]
  | cons x xs ih =>
    simp only [List.cons_append, plainLeavesList, List.append_eq, ih, List.append_assoc]

/-- Whether none of the six inline constructs matches anywhere in the
text: on such a text the formatter emits a single plain leaf. -/
def noInlineMatch (l : List Char) : Bool :=
  (findImage l).isNone && (findBold l).isNone && (findItalic l).isNone &&
    (findStrike l).isNone && (findCode l).isNone && (findLink l).isNone

theorem noInlineMatch_eval {t : List Char} (h : noInlineMatch t = true)
    (hne : t ≠ []) (m cnt : Nat) :
    processFormattingWithCounter (m + 1) t cnt = some ([Span.text t], cnt + 1) := by
  simp only [noInlineMatch, Bool.and_eq_true, Option.isNone_iff_eq_none] at h
  obtain ⟨⟨⟨⟨⟨h1, h2⟩, h3⟩, h4⟩, h5⟩, h6⟩ := h
  rw [processFormattingWithCounter]
  rw [if_neg (by simpa [List.isEmpty_iff] using hne)]
  rw [h1]
  dsimp only
  rw [h2]
  dsimp only
  rw [h3]
  dsimp only
  rw [h4]
  dsimp only
  rw [h5]
  dsimp only
  rw [h6]

theorem processFormattingWithCounter_ne_nil :
    ∀ {n : Nat} {l : List Char} {cnt : Nat} {r : List Span} {c' : Nat},
      processFormattingWithCounter n l cnt = some (r, c') → l ≠ [] → r ≠ [] := by
  intro n l cnt r c' h hl
  cases n with
  | zero => cases h
  | succ n =>
    rw [processFormattingWithCounter] at h
    rw [if_neg (by simpa [List.isEmpty_iff] using hl)] at h
    cases hI : findImage l with
    | some q =>
      obtain ⟨pre, alt, url, cap, suf⟩ := q
      rw [hI] at h
      dsimp only at h
      simp only [Option.bind_eq_bind, Option.bind_eq_some] at h
      obtain ⟨⟨preR, c1⟩, hp, h⟩ := h
      dsimp only at h
      obtain ⟨⟨sufR, c3⟩, hs, h⟩ := h
      dsimp only at h
      simp only [Option.some.injEq, Prod.mk.injEq] at h
      obtain ⟨h1, h2⟩ := h
      rw [← h1]
      simp
    | none =>
      rw [hI] at h
      dsimp only at h
      cases hB : findBold l with
      | some q =>
        obtain ⟨pre, inner, suf⟩ := q
        rw [hB] at h
        dsimp only at h
        simp only [Option.bind_eq_bind, Option.bind_eq_some] at h
        obtain ⟨⟨preR, c1⟩, hp, h⟩ := h
        dsimp only at h
        obtain ⟨⟨innerR, c2⟩, hin, h⟩ := h
        dsimp only at h
        obtain ⟨⟨sufR, c4⟩, hs, h⟩ := h
        dsimp only at h
        simp only [Option.some.injEq, Prod.mk.injEq] at h
        obtain ⟨h1, h2⟩ := h
        rw [← h1]
        simp
      | none =>
        rw [hB] at h
        dsimp only at h
        cases hIt : findItalic l with
        | some q =>
          obtain ⟨pre, inner, suf⟩ := q
          rw [hIt] at h
          dsimp only at h
          simp only [Option.bind_eq_bind, Option.bind_eq_some] at h
          obtain ⟨⟨preR, c1⟩, hp, h⟩ := h
          dsimp only at h
          obtain ⟨⟨innerR, c2⟩, hin, h⟩ := h
          dsimp only at h
          obtain ⟨⟨sufR, c4⟩, hs, h⟩ := h
          dsimp only at h
          simp only [Option.some.injEq, Prod.mk.injEq] at h
          obtain ⟨h1, h2⟩ := h
          rw [← h1]
          simp
        | none =>
          rw [hIt] at h
          dsimp only at h
          cases hS : findStrike l with
          | some q =>
            obtain ⟨pre, inner, suf⟩ := q
            rw [hS] at h
            dsimp only at h
            simp only [Option.bind_eq_bind, Option.bind_eq_some] at h
            obtain ⟨⟨preR, c1⟩, hp, h⟩ := h
            dsimp only at h
            obtain ⟨⟨innerR, c2⟩, hin, h⟩ := h
            dsimp only at h
            obtain ⟨⟨sufR, c4⟩, hs, h⟩ := h
            dsimp only at h
            simp only [Option.some.injEq, Prod.mk.injEq] at h
            obtain ⟨h1, h2⟩ := h
            rw [← h1]
            simp
          | none =>
            rw [hS] at h
            dsimp only at h
            cases hC : findCode l with
            | some q =>
              obtain ⟨pre, codeText, suf⟩ := q
              rw [hC] at h
              dsimp only at h
              simp only [Option.bind_eq_bind, Option.bind_eq_some] at h
              obtain ⟨⟨preR, c1⟩, hp, h⟩ := h
              dsimp only at h
              obtain ⟨⟨sufR, c3⟩, hs, h⟩ := h
              dsimp only at h
              simp only [Option.some.injEq, Prod.mk.injEq] at h
              obtain ⟨h1, h2⟩ := h
              rw [← h1]
              simp
            | none =>
              rw [hC] at h
              dsimp only at h
              cases hL : findLink l with
              | some q =>
                obtain ⟨pre, t, u, suf⟩ := q
                rw [hL] at h
                dsimp only at h
                simp only [Option.bind_eq_bind, Option.bind_eq_some] at h
                obtain ⟨⟨preR, c1⟩, hp, h⟩ := h
                dsimp only at h
                obtain ⟨⟨sufR, c3⟩, hs, h⟩ := h
                dsimp only at h
                simp only [Option.some.injEq, Prod.mk.injEq] at h
                obtain ⟨h1, h2⟩ := h
                rw [← h1]
                simp
              | none =>
                rw [hL] at h
                dsimp only at h
                simp only [Option.some.injEq, Prod.mk.injEq] at h
                obtain ⟨h1, h2⟩ := h
                rw [← h1]
                simp

theorem processFormattingWithCounter_leaves :
    ∀ (n : Nat) {l : List Char} {cnt : Nat} {r : List Span} {c' : Nat},
      processFormattingWithCounter n l cnt = some (r, c') →
      ∀ t ∈ plainLeavesList r, t ≠ [] ∧ noInlineMatch t = true := by
  intro n
  induction n with
  | zero => intro l cnt r c' h; cases h
  | succ n ih =>
    intro l cnt r c' h t ht
    rw [processFormattingWithCounter] at h
    by_cases he : l.isEmpty = true
    · rw [if_pos he] at h
      simp only [Option.some.injEq, Prod.mk.injEq] at h
      obtain ⟨h1, h2⟩ := h
      rw [← h1] at ht
      simp [plainLeavesList] at ht
    · rw [if_neg he] at h
      have hlne : l ≠ [] := by simpa [List.isEmpty_iff] using he
      cases hI : findImage l with
      | some q =>
        obtain ⟨pre, alt, url, cap, suf⟩ := q
        rw [hI] at h
        dsimp only at h
        simp only [Option.bind_eq_bind, Option.bind_eq_some] at h
        obtain ⟨⟨preR, c1⟩, hp, h⟩ := h
        dsimp only at h
        obtain ⟨⟨sufR, c3⟩, hs, h⟩ := h
        simp only [Option.some.injEq, Prod.mk.injEq] at h
        obtain ⟨h1, h2⟩ := h
        rw [← h1] at ht
        rw [plainLeavesList_append] at ht
        simp only [plainLeavesList, plainLeaves, List.mem_append] at ht
        rcases ht with ht | ht | ht
        · exact ih hp t ht
        · simp at ht
        · exact ih hs t ht
      | none =>
        rw [hI] at h
        dsimp only at h
        cases hB : findBold l with
        | some q =>
          obtain ⟨pre, inner, suf⟩ := q
          rw [hB] at h
          dsimp only at h
          simp only [Option.bind_eq_bind, Option.bind_eq_some] at h
          obtain ⟨⟨preR, c1⟩, hp, h⟩ := h
          dsimp only at h
          obtain ⟨⟨innerR, c2⟩, hin, h⟩ := h
          dsimp only at h
          obtain ⟨⟨sufR, c4⟩, hs, h⟩ := h
          simp only [Option.some.injEq, Prod.mk.injEq] at h
          obtain ⟨h1, h2⟩ := h
          rw [← h1] at ht
          obtain ⟨hni, _, _, _⟩ := findBold_length hB
          have hpos : 0 < innerR.length :=
            List.length_pos.mpr (processFormattingWithCounter_ne_nil hin hni)
          rw [if_pos hpos] at ht
          rw [plainLeavesList_append] at ht
          simp only [plainLeavesList, plainLeaves, List.mem_append] at ht
          rcases ht with ht | ht | ht
          · exact ih hp t ht
          · exact ih hin t ht
          · exact ih hs t ht
        | none =>
          rw [hB] at h
          dsimp only at h
          cases hIt : findItalic l with
          | some q =>
            obtain ⟨pre, inner, suf⟩ := q
            rw [hIt] at h
            dsimp only at h
            simp only [Option.bind_eq_bind, Option.bind_eq_some] at h
            obtain ⟨⟨preR, c1⟩, hp, h⟩ := h
            dsimp only at h
            obtain ⟨⟨innerR, c2⟩, hin, h⟩ := h
            dsimp only at h
            obtain ⟨⟨sufR, c4⟩, hs, h⟩ := h
            simp only [Option.some.injEq, Prod.mk.injEq] at h
            obtain ⟨h1, h2⟩ := h
            rw [← h1] at ht
            obtain ⟨hni, _, _, _⟩ := findItalic_length hIt
            have hpos : 0 < innerR.length :=
              List.length_pos.mpr (processFormattingWithCounter_ne_nil hin hni)
            rw [if_pos hpos] at ht
            rw [plainLeavesList_append] at ht
            simp only [plainLeavesList, plainLeaves, List.mem_append] at ht
            rcases ht with ht | ht | ht
            · exact ih hp t ht
            · exact ih hin t ht
            · exact ih hs t ht
          | none =>
            rw [hIt] at h
            dsimp only at h
            cases hS : findStrike l with
            | some q =>
              obtain ⟨pre, inner, suf⟩ := q
              rw [hS] at h
              dsimp only at h
              simp only [Option.bind_eq_bind, Option.bind_eq_some] at h
              obtain ⟨⟨preR, c1⟩, hp, h⟩ := h
              dsimp only at h
              obtain ⟨⟨innerR, c2⟩, hin, h⟩ := h
              dsimp only at h
              obtain ⟨⟨sufR, c4⟩, hs, h⟩ := h
              simp only [Option.some.injEq, Prod.mk.injEq] at h
              obtain ⟨h1, h2⟩ := h
              rw [← h1] at ht
              obtain ⟨hni, _, _, _⟩ := findStrike_length hS
              have hpos : 0 < innerR.length :=
                List.length_pos.mpr (processFormattingWithCounter_ne_nil hin hni)
              rw [if_pos hpos] at ht
              rw [plainLeavesList_append] at ht
              simp only [plainLeavesList, plainLeaves, List.mem_append] at ht
              rcases ht with ht | ht | ht
              · exact ih hp t ht
              · exact ih hin t ht
              · exact ih hs t ht
            | none =>
              rw [hS] at h
              dsimp only at h
              cases hC : findCode l with
              | some q =>
                obtain ⟨pre, codeText, suf⟩ := q
                rw [hC] at h
                dsimp only at h
                simp only [Option.bind_eq_bind, Option.bind_eq_some] at h
                obtain ⟨⟨preR, c1⟩, hp, h⟩ := h
                dsimp only at h
                obtain ⟨⟨sufR, c3⟩, hs, h⟩ := h
                simp only [Option.some.injEq, Prod.mk.injEq] at h
                obtain ⟨h1, h2⟩ := h
                rw [← h1] at ht
                rw [plainLeavesList_append] at ht
                simp only [plainLeavesList, plainLeaves, List.mem_append] at ht
                rcases ht with ht | ht | ht
                · exact ih hp t ht
                · simp at ht
                · exact ih hs t ht
              | none =>
                rw [hC] at h
                dsimp only at h
                cases hL : findLink l with
                | some q =>
                  obtain ⟨pre, tl, u, suf⟩ := q
                  rw [hL] at h
                  dsimp only at h
                  simp only [Option.bind_eq_bind, Option.bind_eq_some] at h
                  obtain ⟨⟨preR, c1⟩, hp, h⟩ := h
                  dsimp only at h
                  obtain ⟨⟨sufR, c3⟩, hs, h⟩ := h
                  simp only [Option.some.injEq, Prod.mk.injEq] at h
                  obtain ⟨h1, h2⟩ := h
                  rw [← h1] at ht
                  rw [plainLeavesList_append] at ht
                  simp only [plainLeavesList, plainLeaves, List.mem_append] at ht
                  rcases ht with ht | ht | ht
                  · exact ih hp t ht
                  · simp at ht
                  · exact ih hs t ht
                | none =>
                  rw [hL] at h
                  dsimp only at h
                  simp only [Option.some.injEq, Prod.mk.injEq] at h
                  obtain ⟨h1, h2⟩ := h
                  rw [← h1] at ht
                  simp only [plainLeavesList, plainLeaves, List.append_nil,
                    List.mem_singleton] at ht
                  subst ht
                  refine ⟨hlne, ?_⟩
                  simp [noInlineMatch, hI, hB, hIt, hS, hC, hL]

/-- A triple-backtick fence starts at position `p` of `l`. -/
def fenceAt (l : List Char) (p : Nat) : Prop :=
  (l.drop p).take 3 = codeFence

instance (l : List Char) (p : Nat) : Decidable (fenceAt l p) := by
  unfold fenceAt
  infer_instance

theorem fenceAt_le {l : List Char} {q : Nat} (h : fenceAt l q) :
    q + 3 ≤ l.length := by
  unfold fenceAt at h
  have := congrArg List.length h
  simp only [List.length_take, List.length_drop, codeFence] at this
  simp only [List.length_cons, List.length_nil] at this
  omega

theorem lazyContent_splits {l cs rest : List Char}
    (h : lazyContent l = some (cs, rest)) :
    l = cs ++ codeFence ++ rest := by
  induction l generalizing cs rest with
  | nil => simp [lazyContent] at h
  | cons c r ih =>
    rw [lazyContent] at h
    by_cases hf : (c :: r).take 3 = codeFence
    · rw [if_pos hf] at h
      simp only [Option.some.injEq, Prod.mk.injEq] at h
      obtain ⟨h1, h2⟩ := h
      rw [← h1, ← h2]
      conv_lhs => rw [← List.take_append_drop 3 (c :: r)]
      rw [hf]
      simp
    · rw [if_neg hf] at h
      simp only [Option.map_eq_some'] at h
      obtain ⟨⟨cs', rest'⟩, hp, he⟩ := h
      simp only [Prod.mk.injEq] at he
      obtain ⟨he1, he2⟩ := he
      subst he1; subst he2
      have := ih hp
      simp [this]

theorem matchCodeAt_fences {l g c r : List Char}
    (h : matchCodeAt l = some (g, c, r)) :
    l.take 3 = codeFence ∧ ∃ k, 3 ≤ k ∧ (l.drop k).take 3 = codeFence := by
  rw [matchCodeAt] at h
  split at h
  · rename_i hf
    refine ⟨hf, ?_⟩
    have hl : l = codeFence ++ l.drop 3 := by
      conv_lhs => rw [← List.take_append_drop 3 l]
      rw [hf]
    split at h
    · rename_i run after htag
      split at h
      · rename_i content rest hlz
        obtain ⟨_, hne, hsh⟩ := tagSplit_shape htag
        have hafter := lazyContent_splits hlz
        refine ⟨3 + run.length + 1 + content.length, by omega, ?_⟩
        have : l = (codeFence ++ run ++ '\n' :: content) ++ (codeFence ++ r) := by
          rw [hl, hsh, hafter]
          injection h with h
          injection h with h1 h
          injection h with h2 h3
          subst h2 h3
          simp
        rw [this]
        have hlen : (codeFence ++ run ++ '\n' :: content).length =
            3 + run.length + 1 + content.length := by
          simp [codeFence]
          omega
        rw [← hlen, List.drop_left]
        have : codeFence.length = 3 := by simp [codeFence]
        rw [← this, List.take_left]
      · rename_i hlz
        simp only [Option.map_eq_some'] at h
        obtain ⟨⟨cs', rest'⟩, hp, he⟩ := h
        simp only [Prod.mk.injEq] at he
        obtain ⟨he1, he2, he3⟩ := he
        subst he2; subst he3
        have hd := lazyContent_splits hp
        refine ⟨3 + cs'.length, by omega, ?_⟩
        have : l = (codeFence ++ cs') ++ (codeFence ++ rest') := by
          rw [hl, hd]
          simp
        rw [this]
        have hlen : (codeFence ++ cs').length = 3 + cs'.length := by
          simp [codeFence]
          omega
        rw [← hlen, List.drop_left]
        have h3 : codeFence.length = 3 := by simp [codeFence]
        rw [← h3, List.take_left]
    · simp only [Option.map_eq_some'] at h
      obtain ⟨⟨cs', rest'⟩, hp, he⟩ := h
      simp only [Prod.mk.injEq] at he
      obtain ⟨he1, he2, he3⟩ := he
      subst he2; subst he3
      have hd := lazyContent_splits hp
      refine ⟨3 + cs'.length, by omega, ?_⟩
      have : l = (codeFence ++ cs') ++ (codeFence ++ rest') := by
        rw [hl, hd]
        simp
      rw [this]
      have hlen : (codeFence ++ cs').length = 3 + cs'.length := by
        simp [codeFence]
        omega
      rw [← hlen, List.drop_left]
      have h3 : codeFence.length = 3 := by simp [codeFence]
      rw [← h3, List.take_left]
  · cases h

theorem findFence_none :
    ∀ {l : List Char}, (∀ j, matchCodeAt (l.drop j) = none) → findFence l = none := by
  intro l
  induction l with
  | nil => intro hm; rfl
  | cons c r ih =>
    intro hm
    rw [findFence]
    have h0 := hm 0
    simp only [List.drop_zero] at h0
    rw [h0]
    have : findFence r = none := by
      apply ih
      intro j
      have := hm (j + 1)
      simpa using this
    rw [this]
    rfl

theorem kwHere_mem :
    ∀ {kws : List (List Char)} {l k : List Char}, kwHere kws l = some k → k ∈ kws := by
  intro kws
  induction kws with
  | nil => intro l k h; simp [kwHere] at h
  | cons k0 ks ih =>
    intro l k h
    rw [kwHere] at h
    split_ifs at h with h1
    · injection h with h
      subst h
      simp
    · exact List.mem_cons_of_mem _ (ih h)

theorem keywordList_ne_nil (lang : List Char) :
    ∀ k ∈ keywordList lang, k ≠ [] := by
  unfold keywordList
  split_ifs <;> decide

theorem kwScanAux_isSome :
    ∀ (n : Nat) (kws : List (List Char)) (acc : List Char) (prev : Option Char)
      (l : List Char), (∀ k ∈ kws, k ≠ []) → List.length l < n →
      (kwScanAux n kws acc prev l).isSome = true := by
  intro n
  induction n with
  | zero => intro kws acc prev l hk h; omega
  | succ n ih =>
    intro kws acc prev l hk h
    match l with
    | [] => rfl
    | c :: rest =>
      rw [kwScanAux.eq_def]
      dsimp only
      cases hkw : (if (match prev with
          | none => true
          | some p => !isWordChar p) = true then kwHere kws (c :: rest) else none) with
      | some k =>
        have hkmem : k ∈ kws := by
          split_ifs at hkw with hb
          exact kwHere_mem hkw
        have hkne : k ≠ [] := hk k hkmem
        have hkpos : 0 < k.length := List.length_pos.mpr hkne
        dsimp only
        obtain ⟨tl, htl⟩ := Option.isSome_iff_exists.mp
          (ih kws [] (some (k.getLastD c)) ((c :: rest).drop k.length) hk
            (by simp only [List.length_drop, List.length_cons] at h ⊢; omega))
        rw [htl]
        simp only [Option.bind_eq_bind, Option.some_bind]
        rfl
      | none =>
        exact ih kws (c :: acc) (some c) rest hk
          (by simp only [List.length_cons] at h; omega)

theorem processKeywords_isSome (kws : List (List Char)) (text : List Char)
    (hk : ∀ k ∈ kws, k ≠ []) : (processKeywords kws text).isSome = true :=
  kwScanAux_isSome _ kws [] none text hk (by omega)

theorem stringKeywordSegs_isSome :
    ∀ (n : Nat) (kws : List (List Char)) (text : List Char),
      (∀ k ∈ kws, k ≠ []) → List.length text < n →
      (stringKeywordSegs n kws text).isSome = true := by
  intro n
  induction n with
  | zero => intro kws text hk h; omega
  | succ n ih =>
    intro kws text hk h
    rw [stringKeywordSegs]
    cases hs : findString text with
    | none =>
      by_cases he : text.isEmpty = true
      · rw [if_pos he]; rfl
      · rw [if_neg he]
        exact processKeywords_isSome kws text hk
    | some q =>
      obtain ⟨before, mtch, after⟩ := q
      obtain ⟨hb, ha⟩ := findString_length hs
      dsimp only
      obtain ⟨tl, htl⟩ := Option.isSome_iff_exists.mp (ih kws after hk (by omega))
      by_cases hbe : before.isEmpty = true
      · rw [if_pos hbe]
        simp only [Option.bind_eq_bind, Option.some_bind]
        rw [htl]
        simp only [Option.some_bind]
        rfl
      · rw [if_neg hbe]
        obtain ⟨pre, hpre⟩ := Option.isSome_iff_exists.mp
          (processKeywords_isSome kws before hk)
        rw [hpre]
        simp only [Option.bind_eq_bind, Option.some_bind]
        rw [htl]
        simp only [Option.some_bind]
        rfl

theorem highlightLine_isSome (lang line : List Char) :
    (highlightLine lang line).isSome = true := by
  rw [highlightLine]
  have hk := keywordList_ne_nil lang
  cases hc : (if lang = "python".toList then findHashComment line
      else findSlashComment line) with
  | some q =>
    obtain ⟨before, comment⟩ := q
    dsimp only
    obtain ⟨pre, hpre⟩ := Option.isSome_iff_exists.mp
      (stringKeywordSegs_isSome (before.length + 1) _ before hk (by omega))
    rw [hpre]
    simp only [Option.bind_eq_bind, Option.some_bind]
    rfl
  | none =>
    dsimp only
    obtain ⟨segs, hsegs⟩ := Option.isSome_iff_exists.mp
      (stringKeywordSegs_isSome (line.length + 1) _ line hk (by omega))
    rw [hsegs]
    simp only [Option.bind_eq_bind, Option.some_bind]
    rfl

theorem mapM_isSome {α β : Type} (f : α → Option β) :
    ∀ xs : List α, (∀ x ∈ xs, (f x).isSome = true) → (xs.mapM f).isSome = true := by
  intro xs
  induction xs with
  | nil => intro hx; rfl
  | cons x xs ih =>
    intro hx
    rw [List.mapM_cons]
    obtain ⟨y, hy⟩ := Option.isSome_iff_exists.mp (hx x (by simp))
    obtain ⟨ys, hys⟩ := Option.isSome_iff_exists.mp (ih fun z hz => hx z (by simp [hz]))
    rw [hy, hys]
    rfl

theorem codeHighlighter_isSome (code language : List Char) :
    (codeHighlighter code language).isSome = true := by
  rw [codeHighlighter]
  by_cases hs : (language.isEmpty || !supportedLanguages.contains language) = true
  · rw [if_pos hs]; rfl
  · rw [if_neg hs]
    obtain ⟨ls, hls⟩ := Option.isSome_iff_exists.mp
      (mapM_isSome (highlightLine language) (code.splitOn '\n')
        fun x _ => highlightLine_isSome language x)
    rw [hls]
    simp only [Option.bind_eq_bind, Option.some_bind]
    rfl

theorem renderListItems_isSome :
    ∀ (n : Nat) (items : List ProcessedLine) (p : Nat), List.length items < n →
      (renderListItems n items p).isSome = true := by
  intro n
  induction n with
  | zero => intro items p hk; omega
  | succ n ih =>
    intro items p hlen
    match items with
    | [] => rw [renderListItems]; rfl
    | it :: rest =>
      rw [renderListItems]
      by_cases hl : it.level = p
      · rw [if_pos hl]
        dsimp only
        obtain ⟨inl, hinl⟩ := Option.isSome_iff_exists.mp
          (parseInlineFormatting_isSome it.content)
        have htw := length_takeWhile_le' (fun x => decide (p < x.level)) rest
        have hdw := length_dropWhile_le' (fun x => decide (p < x.level)) rest
        simp only [List.length_cons] at hlen
        obtain ⟨kids, hkids⟩ := Option.isSome_iff_exists.mp
          (ih (rest.takeWhile fun x => decide (p < x.level)) (p + 1) (by omega))
        obtain ⟨tl, htl⟩ := Option.isSome_iff_exists.mp
          (ih (rest.dropWhile fun x => decide (p < x.level)) p (by omega))
        rw [hinl]
        simp only [Option.bind_eq_bind, Option.some_bind]
        rw [hkids]
        simp only [Option.some_bind]
        rw [htl]
        simp only [Option.some_bind]
        rfl
      · rw [if_neg hl]
        simp only [List.length_cons] at hlen
        exact ih rest p (by omega)

theorem classifyNonList_isSome (pl : ProcessedLine) (tot : Nat) :
    (classifyNonList pl tot).isSome = true := by
  rw [classifyNonList]
  cases hh : headerMatch (jsTrim pl.line) with
  | some q =>
    obtain ⟨level, content⟩ := q
    dsimp only
    obtain ⟨spans, hspans⟩ := Option.isSome_iff_exists.mp
      (parseInlineFormatting_isSome content)
    rw [hspans]
    simp only [Option.bind_eq_bind, Option.some_bind]
    rfl
  | none =>
    dsimp only
    by_cases hq : (jsTrim pl.line).take 1 = ['>']
    · rw [if_pos hq]
      obtain ⟨spans, hspans⟩ := Option.isSome_iff_exists.mp
        (parseInlineFormatting_isSome (jsTrim ((jsTrim pl.line).drop 1)))
      rw [hspans]
      simp only [Option.bind_eq_bind, Option.some_bind]
      rfl
    · rw [if_neg hq]
      by_cases hhr : hrMatch (jsTrim pl.line) = true
      · rw [if_pos hhr]; rfl
      · rw [if_neg hhr]
        obtain ⟨spans, hspans⟩ := Option.isSome_iff_exists.mp
          (parseInlineFormatting_isSome pl.line)
        rw [hspans]
        simp only [Option.bind_eq_bind, Option.some_bind]
        rfl

theorem renderLines_isSome :
    ∀ (n : Nat) (pls : List ProcessedLine) (tot : Nat), List.length pls < n →
      (renderLines n pls tot).isSome = true := by
  intro n
  induction n with
  | zero => intro pls tot h; omega
  | succ n ih =>
    intro pls tot hlen
    match pls with
    | [] => rfl
    | pl :: rest =>
      rw [renderLines]
      by_cases hli : pl.isListItem = true
      · rw [if_pos hli]
        dsimp only
        obtain ⟨items, hitems⟩ := Option.isSome_iff_exists.mp
          (renderListItems_isSome
            ((pl :: rest.takeWhile fun x => x.isListItem && decide (pl.level ≤ x.level)).length + 1)
            (pl :: rest.takeWhile fun x => x.isListItem && decide (pl.level ≤ x.level))
            pl.level (by omega))
        have hdw := length_dropWhile_le'
          (fun x => x.isListItem && decide (pl.level ≤ x.level)) rest
        simp only [List.length_cons] at hlen
        obtain ⟨tl, htl⟩ := Option.isSome_iff_exists.mp
          (ih (rest.dropWhile fun x => x.isListItem && decide (pl.level ≤ x.level))
            tot (by omega))
        rw [hitems]
        simp only [Option.bind_eq_bind, Option.some_bind]
        rw [htl]
        simp only [Option.some_bind]
        rfl
      · rw [if_neg hli]
        obtain ⟨node, hnode⟩ := Option.isSome_iff_exists.mp
          (classifyNonList_isSome pl tot)
        simp only [List.length_cons] at hlen
        obtain ⟨tl, htl⟩ := Option.isSome_iff_exists.mp (ih rest tot (by omega))
        rw [hnode]
        simp only [Option.bind_eq_bind, Option.some_bind]
        rw [htl]
        simp only [Option.some_bind]
        rfl

theorem renderBlock_isSome (b : ContentBlock) : (renderBlock b).isSome = true := by
  cases b with
  | codeBlock lang content =>
    rw [renderBlock]
    simp only [Option.isSome_map']
    exact codeHighlighter_isSome content lang
  | text content =>
    rw [renderBlock]
    simp only [Option.isSome_map']
    exact renderLines_isSome _ _ _ (by omega)

theorem render_isSome (text : List Char) : (render text).isSome = true := by
  rw [render]
  obtain ⟨blocks, hblocks⟩ := Option.isSome_iff_exists.mp
    (splitAux_isSome (text.length + 1) text (by omega))
  rw [show textWithCodeBlocks text = some blocks from hblocks]
  simp only [Option.bind_eq_bind, Option.some_bind]
  exact mapM_isSome renderBlock blocks fun b _ => renderBlock_isSome b

theorem matchCodeAt_tag {l lang content rest : List Char}
    (h : matchCodeAt l = some (lang, content, rest)) :
    (lang ≠ [] → (∀ ch ∈ lang, isAlnumChar ch = true) ∧
      l.drop 3 = lang ++ '\n' :: (content ++ codeFence ++ rest)) ∧
    (tagSplit (l.drop 3) = none → lang = [] ∧
      l.drop 3 = content ++ codeFence ++ rest) := by
  rw [matchCodeAt] at h
  split at h
  · rename_i hf
    split at h
    · rename_i run after htag
      split at h
      · rename_i content' rest' hlz
        injection h with h
        injection h with h1 h
        injection h with h2 h3
        subst h1; subst h2; subst h3
        obtain ⟨hrun, hne, hsh⟩ := tagSplit_shape htag
        constructor
        · intro _
          constructor
          · intro ch hch
            rw [hrun] at hch
            exact List.mem_takeWhile_imp hch
          · rw [hsh, lazyContent_splits hlz]
        · intro hnone
          rw [htag] at hnone
          cases hnone
      · rename_i hlz
        simp only [Option.map_eq_some', Prod.mk.injEq] at h
        obtain ⟨⟨cs', rest'⟩, hp, he1, he2, he3⟩ := h
        subst he2; subst he3
        constructor
        · intro hne
          exact absurd he1.symm hne
        · intro hnone
          rw [htag] at hnone
          cases hnone
    · rename_i htag
      simp only [Option.map_eq_some', Prod.mk.injEq] at h
      obtain ⟨⟨cs', rest'⟩, hp, he1, he2, he3⟩ := h
      subst he2; subst he3
      constructor
      · intro hne
        exact absurd he1.symm hne
      · intro _
        exact ⟨he1.symm, lazyContent_splits hp⟩
  · cases h

/-- C1: for every input string, the full rendering pipeline (block
split, line classification, list grouping, inline formatting, code
highlighting) terminates and returns a result: every fueled loop of the
embedding is run with sufficient fuel, so `render` never returns
`none` and no failure path exists. -/
theorem claim1_pipeline_never_throws (text : List Char) :
    (render text).isSome = true :=
  render_isSome text

/-- C2: the claim that no body-text character is absent from the
rendered output is violated by the code: for the input `- x` /
four-spaces `- y`, the list item `y` (indent level 2 under a level-0
parent) is dropped by the list grouper, so the character `y` appears in
the input but in no rendered leaf text. -/
theorem claim2_body_text_lost_on_skipped_list_level :
    (render "- x\n    - y".toList).map (fun bs => (flattenDoc bs).contains 'y') =
      some false ∧
    ("- x\n    - y".toList).contains 'y' = true := by
  constructor
  · rfl
  · rfl

/-- C3 counterexample: on `*italic **and bold** text*` the inline
formatter matches bold first and produces three sibling nodes — a plain
leaf with a literal asterisk, a bold span, a plain leaf — with no
italic span at all and no nesting, refuting the claim of two nested
span levels for this input. -/
theorem claim3_counterexample :
    (processFormattingWithCounter 30 "*italic **and bold** text*".toList 0).map
        Prod.fst =
      some [Span.text "*italic ".toList, Span.bold [Span.text "and bold".toList],
        Span.text " text*".toList] ∧
    (processFormattingWithCounter 30 "*italic **and bold** text*".toList 0).map
        (fun p => containsItalicList p.1) = some false := by
  exact ⟨rfl, rfl⟩

/-- C3 amended: `**bold *and italic* text**` parses as two nested span
levels (an italic span inside the bold span), but `*italic **and bold**
text*` does not — bold is matched first, so the result is the sibling
sequence literal `*italic `, Bold(`and bold`), literal ` text*` with no
italic span. -/
theorem claim3_amended :
    (processFormattingWithCounter 30 "**bold *and italic* text**".toList 0).map
        Prod.fst =
      some [Span.bold [Span.text "bold ".toList,
        Span.italic [Span.text "and italic".toList], Span.text " text".toList]] ∧
    (processFormattingWithCounter 30 "*italic **and bold** text*".toList 0).map
        Prod.fst =
      some [Span.text "*italic ".toList, Span.bold [Span.text "and bold".toList],
        Span.text " text*".toList] := by
  exact ⟨rfl, rfl⟩

/-- C4 counterexample: on `` `code with *asterisks*` `` the inline
formatter matches italic before inline code, producing a literal
backtick prefix, an italic span around `asterisks`, and a literal
backtick suffix — no inline-code span is produced and an italic span
is, refuting the claim. -/
theorem claim4_counterexample :
    (processFormattingWithCounter 30 "`code with *asterisks*`".toList 0).map
        Prod.fst =
      some [Span.text "`code with ".toList,
        Span.italic [Span.text "asterisks".toList], Span.text "`".toList] ∧
    (processFormattingWithCounter 30 "`code with *asterisks*`".toList 0).map
        (fun p => containsCodeSpanList p.1) = some false ∧
    (processFormattingWithCounter 30 "`code with *asterisks*`".toList 0).map
        (fun p => containsItalicList p.1) = some true := by
  exact ⟨rfl, rfl, rfl⟩

/-- C4 amended: because italic has higher priority than inline code,
`` `code with *asterisks*` `` yields Plain(`` `code with ``),
Italic(`asterisks`), Plain(`` ` ``); the inline-code literal behavior
holds only when no higher-priority construct matches, e.g.
`` `code with asterisks` `` yields a single inline-code span with its
content kept literal. -/
theorem claim4_amended :
    (processFormattingWithCounter 30 "`code with *asterisks*`".toList 0).map
        Prod.fst =
      some [Span.text "`code with ".toList,
        Span.italic [Span.text "asterisks".toList], Span.text "`".toList] ∧
    (processFormattingWithCounter 30 "`code with asterisks`".toList 0).map
        Prod.fst = some [Span.inlineCode "code with asterisks".toList] := by
  exact ⟨rfl, rfl⟩

/-- C5: the claim that a list line whose indent level skips a level
attaches to the nearest shallower ancestor is violated: for lines
`- a` and four-spaces-indented `- b` (levels 0 and 2), the list
renderer emits exactly one node for `a` with no children — the level-2
item `b` is silently dropped, contradicting the code's own comment
that a skipped item "will be handled by a nested call". -/
theorem claim5_skipped_level_item_dropped :
    renderListItems 3 (processLists ["- a".toList, "    - b".toList]) 0 =
      some [LNode.mk bulletGlyph true [Span.text ['a']] []] := by
  rfl

/-- C6 counterexample: on the exact input of the claim the block
splitter does not produce the claimed content without a trailing
newline. -/
theorem claim6_counterexample :
    textWithCodeBlocks "```python\ndef f():\n    pass\n```".toList ≠
      some [ContentBlock.codeBlock "python".toList "def f():\n    pass".toList] := by
  decide

/-- C6 amended: the input yields exactly one code block with language
`python` and zero text blocks, but its content is
`"def f():\n    pass\n"` — the newline before the closing fence is
part of the content, since the regex captures everything strictly
between the tag newline and the closing delimiter. -/
theorem claim6_amended :
    textWithCodeBlocks "```python\ndef f():\n    pass\n```".toList =
      some [ContentBlock.codeBlock "python".toList "def f():\n    pass\n".toList] := by
  rfl

/-- C7 counterexample: the inline-code leaf of the output for
`` `[x](y)` `` is the literal `[x](y)`, which still matches the link
construct; re-running the formatter on that leaf produces a new link
span, refuting the claim that every leaf is free of unparsed
delimiter patterns. -/
theorem claim7_counterexample :
    (processFormattingWithCounter 10 "`[x](y)`".toList 0).map Prod.fst =
      some [Span.inlineCode "[x](y)".toList] ∧
    noInlineMatch "[x](y)".toList = false ∧
    (processFormattingWithCounter 10 "[x](y)".toList 0).map Prod.fst =
      some [Span.link "x".toList "y".toList] := by
  exact ⟨rfl, rfl, rfl⟩

/-- C7 amended: every plain-text leaf (a `Span.text` node, produced by
the no-match fallback) of the formatter's output matches none of the
six inline constructs, so re-running the formatter on such a leaf
returns the single plain leaf unchanged and produces no additional
span nodes; literal contents of inline-code, link and image nodes are
exempt. -/
theorem claim7_amended (n : Nat) {l : List Char} {cnt : Nat} {r : List Span}
    {c' : Nat} (h : processFormattingWithCounter n l cnt = some (r, c'))
    (t : List Char) (ht : t ∈ plainLeavesList r) :
    noInlineMatch t = true ∧
    ∀ m cnt2, processFormattingWithCounter (m + 1) t cnt2 =
      some ([Span.text t], cnt2 + 1) := by
  obtain ⟨hne, hnm⟩ := processFormattingWithCounter_leaves n h t ht
  exact ⟨hnm, fun m cnt2 => noInlineMatch_eval hnm hne m cnt2⟩

/-- Witness for the C7 amended theorem at the concrete input `*a`,
whose output is the single plain leaf `*a`. -/
theorem claim7_amended_witness :
    noInlineMatch "*a".toList = true ∧
    processFormattingWithCounter 5 "*a".toList 7 = some ([Span.text "*a".toList], 8) := by
  have h := @claim7_amended 3 "*a".toList 0 [Span.text "*a".toList] 1
    (by rfl) "*a".toList (by decide)
  exact ⟨h.1, h.2 4 7⟩

/-- C8: an input whose only fence run is an opening triple-backtick
fence with no closing delimiter anywhere after it is classified
entirely as plain text — the splitter yields a single text block equal
to the whole input, never a code block, and no error. -/
theorem claim8_unterminated_fence_text (l : List Char) (p : Nat)
    (hp : fenceAt l p)
    (hq : ∀ q, q < l.length → fenceAt l q → p ≤ q ∧ q < p + 3) :
    textWithCodeBlocks l = some [ContentBlock.text l] := by
  have hq' : ∀ q, fenceAt l q → p ≤ q ∧ q < p + 3 := by
    intro q hf
    have := fenceAt_le hf
    exact hq q (by omega) hf
  have hnone : ∀ j, matchCodeAt (l.drop j) = none := by
    intro j
    cases hm : matchCodeAt (l.drop j) with
    | none => rfl
    | some t =>
      obtain ⟨g, c, r⟩ := t
      obtain ⟨hf0, k, hk3, hfk⟩ := matchCodeAt_fences hm
      have hfj : fenceAt l j := hf0
      have hfjk : fenceAt l (j + k) := by
        unfold fenceAt
        rw [← List.drop_drop]
        exact hfk
      have h1 := hq' j hfj
      have h2 := hq' (j + k) hfjk
      omega
  have hff := findFence_none hnone
  have hlen : p + 3 ≤ l.length := fenceAt_le hp
  rw [textWithCodeBlocks, splitAux, hff]
  have hne : l.isEmpty = false := by
    cases l
    · simp at hlen
    · rfl
  rw [hne]
  simp

/-- Witness for C8 at a concrete input with one unterminated fence. -/
theorem claim8_witness :
    fenceAt "before ```py unclosed".toList 7 ∧
    textWithCodeBlocks "before ```py unclosed".toList =
      some [ContentBlock.text "before ```py unclosed".toList] := by
  refine ⟨by decide, ?_⟩
  exact claim8_unterminated_fence_text "before ```py unclosed".toList 7
    (by decide) (by decide)

/-- C9 counterexample: for an unsupported language the highlighter
returns the whole code as a single plain text node, not one plain span
per line newline-joined as the claim states. -/
theorem claim9_counterexample :
    codeHighlighter "a\nb".toList "brainfuck".toList =
      some (HLResult.whole "a\nb".toList) ∧
    HLResult.whole "a\nb".toList ≠ specPerLineSpans "a\nb".toList := by
  refine ⟨rfl, ?_⟩
  decide

/-- C9 amended: for every code string and every language outside the
supported set (including the empty language), the highlighter returns
the code verbatim as a single plain unstyled node whose text equals
the input character for character. -/
theorem claim9_amended (code lang : List Char)
    (hmem : lang ∉ supportedLanguages) :
    codeHighlighter code lang = some (HLResult.whole code) ∧
    flattenHL (HLResult.whole code) = code := by
  have hcont : supportedLanguages.contains lang = false := by
    simp only [List.contains, List.elem_eq_mem]
    exact decide_eq_false hmem
  constructor
  · rw [codeHighlighter, if_pos]
    rw [hcont]
    simp
  · rfl

/-- Witness for C9 at a concrete unsupported language. -/
theorem claim9_witness :
    codeHighlighter "x\ny".toList "brainfuck".toList =
      some (HLResult.whole "x\ny".toList) ∧
    flattenHL (HLResult.whole "x\ny".toList) = "x\ny".toList :=
  claim9_amended "x\ny".toList "brainfuck".toList (by decide)

/-- C10: in every successful fenced-code match, a nonempty language tag
is an alphanumeric run immediately followed by a newline sitting right
after the opening fence (recognised only in that shape), and when the
tag parse fails the language is empty and the content starts
immediately after the opening fence, so the malformed tag text and its
newline remain at the start of the content. -/
theorem claim10_tag_recognition (l lang content rest : List Char)
    (h : matchCodeAt l = some (lang, content, rest)) :
    (lang ≠ [] → (∀ ch ∈ lang, isAlnumChar ch = true) ∧
      l.drop 3 = lang ++ '\n' :: (content ++ codeFence ++ rest)) ∧
    (tagSplit (l.drop 3) = none → lang = [] ∧
      l.drop 3 = content ++ codeFence ++ rest) :=
  matchCodeAt_tag h

/-- Witness for C10 at a concrete input whose tag `py+` is not
alphanumeric: the language is empty and the tag text including its
newline stays at the start of the content. -/
theorem claim10_witness :
    ([] : List Char) = [] ∧
    ("```py+\nx```".toList).drop 3 = "py+\nx".toList ++ codeFence ++ [] := by
  exact (claim10_tag_recognition "```py+\nx```".toList [] "py+\nx".toList []
    (by rfl)).2 (by rfl)
